import Mathlib

/-!
Verification of the reasoning-RAG corpus pipeline.

The definitions below are shallow embeddings of the Python sources:
`extract_reasoning.py` (stream-recovery parser, key-content selector,
resumable batch pipeline), `build_db.py` / `build_hybrid_reasoning_db.py`
(hybrid vector-index builders), `reasoning_chain_generator.py`
(retrieval-grounded generation) and `embedding_utils.py` (embedding client).
JSON values are modelled by an inductive type covering null, booleans,
integers, strings, arrays and objects; `json.loads` is modelled by a
recursive-descent parser over character lists.
-/

namespace RRag

/-- Whitespace accepted by the stream parser (`' \t\n\r'`) and by JSON. -/
def isWsChar (c : Char) : Bool :=
  c = ' ' || c = '\t' || c = '\n' || c = '\r'

/-- Drop leading whitespace characters. -/
def skipWsL (cs : List Char) : List Char :=
  cs.dropWhile isWsChar

theorem skipWsL_nil : skipWsL [] = [] := rfl

theorem skipWsL_cons_of_not_ws {c : Char} (h : isWsChar c = false) (cs : List Char) :
    skipWsL (c :: cs) = c :: cs := by
  simp [skipWsL, List.dropWhile, h]

theorem skipWsL_cons_of_ws {c : Char} (h : isWsChar c = true) (cs : List Char) :
    skipWsL (c :: cs) = skipWsL cs := by
  simp [skipWsL, List.dropWhile, h]

/-- The decimal digit character for a value below ten. -/
def digitChar (d : Nat) : Char := Char.ofNat (48 + d)

theorem digitChar_toNat {d : Nat} (h : d < 10) : (digitChar d).toNat = 48 + d := by
  interval_cases d <;> decide

theorem digitChar_isDigit {d : Nat} (h : d < 10) : (digitChar d).isDigit = true := by
  interval_cases d <;> decide

/-- Decimal digits with an explicit budget (one division per budget unit). -/
def natToCharsF : Nat → Nat → List Char
  | 0, _ => []
  | fuel + 1, n =>
    if n < 10 then [digitChar n]
    else natToCharsF fuel (n / 10) ++ [digitChar (n % 10)]

/-- Decimal digits of a natural number, most significant first. -/
def natToChars (n : Nat) : List Char := natToCharsF (n + 1) n

theorem natToCharsF_adequate (n : Nat) : ∀ fuel, n < fuel →
    natToCharsF fuel n = natToCharsF (n + 1) n := by
  induction n using Nat.strong_induction_on with
  | _ n ih =>
    intro fuel hf
    obtain ⟨f', rfl⟩ : ∃ f', fuel = f' + 1 := by
      cases fuel with
      | zero => omega
      | succ f' => exact ⟨f', rfl⟩
    by_cases h10 : n < 10
    · simp [natToCharsF, h10]
    · have hlt : n / 10 < n := Nat.div_lt_self (by omega) (by omega)
      simp only [natToCharsF, h10, if_false]
      rw [ih (n / 10) hlt f' (by omega), ih (n / 10) hlt n (by omega)]

theorem natToChars_eq (n : Nat) : natToChars n =
    if n < 10 then [digitChar n]
    else natToChars (n / 10) ++ [digitChar (n % 10)] := by
  by_cases h10 : n < 10
  · unfold natToChars
    simp [natToCharsF, h10]
  · rw [if_neg h10]
    have h1 : natToChars n = natToCharsF n (n / 10) ++ [digitChar (n % 10)] := by
      unfold natToChars
      simp [natToCharsF, h10]
    rw [h1, natToCharsF_adequate (n / 10) n (by omega)]
    unfold natToChars
    rfl

theorem natToChars_ne_nil (n : Nat) : natToChars n ≠ [] := by
  rw [natToChars_eq]
  split <;> simp

theorem natToChars_digits (n : Nat) : ∀ c ∈ natToChars n, c.isDigit = true := by
  induction n using Nat.strong_induction_on with
  | _ n ih =>
    rw [natToChars_eq]
    split
    · rename_i h
      intro c hc
      simp at hc
      subst hc
      exact digitChar_isDigit h
    · rename_i h
      intro c hc
      simp at hc
      rcases hc with hc | hc
      · exact ih (n / 10) (Nat.div_lt_self (by omega) (by omega)) c hc
      · subst hc
        exact digitChar_isDigit (Nat.mod_lt _ (by omega))

/-- Fold decimal digit characters onto an accumulator. -/
def digitsToNatAux (acc : Nat) : List Char → Nat
  | [] => acc
  | c :: cs => digitsToNatAux (acc * 10 + (c.toNat - 48)) cs

/-- Value of a most-significant-first decimal digit string. -/
def digitsToNat (ds : List Char) : Nat := digitsToNatAux 0 ds

theorem digitsToNatAux_append (acc : Nat) (xs ys : List Char) :
    digitsToNatAux acc (xs ++ ys) = digitsToNatAux (digitsToNatAux acc xs) ys := by
  induction xs generalizing acc with
  | nil => rfl
  | cons x xs ih =>
    show digitsToNatAux (acc * 10 + (x.toNat - 48)) (xs ++ ys) = _
    rw [ih]
    rfl

theorem digitsToNatAux_natToChars (acc n : Nat) :
    digitsToNatAux acc (natToChars n) = acc * 10 ^ (natToChars n).length + n := by
  induction n using Nat.strong_induction_on generalizing acc with
  | _ n ih =>
    rw [natToChars_eq]
    split
    · rename_i h
      show digitsToNatAux (acc * 10 + ((digitChar n).toNat - 48)) [] =
        acc * 10 ^ [digitChar n].length + n
      rw [digitChar_toNat h]
      show acc * 10 + (48 + n - 48) = acc * 10 ^ 1 + n
      rw [Nat.pow_one]
      omega
    · rename_i h
      rw [digitsToNatAux_append]
      have hd : n / 10 < n := Nat.div_lt_self (by omega) (by omega)
      rw [ih (n / 10) hd acc]
      have hm : (digitChar (n % 10)).toNat = 48 + n % 10 :=
        digitChar_toNat (Nat.mod_lt n (by omega))
      have key : ∀ Y : Nat, digitsToNatAux (Y + n / 10) [digitChar (n % 10)] = Y * 10 + n := by
        intro Y
        show (Y + n / 10) * 10 + ((digitChar (n % 10)).toNat - 48) = Y * 10 + n
        rw [hm]
        omega
      rw [key]
      simp [List.length_append, Nat.pow_succ]
      ring

theorem digitsToNat_natToChars (n : Nat) : digitsToNat (natToChars n) = n := by
  simp [digitsToNat, digitsToNatAux_natToChars]

/-- Split a character list into its maximal leading digit run and the rest. -/
def splitDigits : List Char → List Char × List Char
  | [] => ([], [])
  | c :: cs =>
    if c.isDigit then
      let p := splitDigits cs
      (c :: p.1, p.2)
    else ([], c :: cs)

/-- True when the list does not start with a decimal digit. -/
def digitFree : List Char → Bool
  | [] => true
  | c :: _ => !c.isDigit

theorem splitDigits_spec {ds rest : List Char} (hds : ∀ c ∈ ds, c.isDigit = true)
    (hrest : digitFree rest = true) : splitDigits (ds ++ rest) = (ds, rest) := by
  induction ds with
  | nil =>
    cases rest with
    | nil => rfl
    | cons c cs =>
      simp [digitFree] at hrest
      simp [splitDigits, hrest]
  | cons d ds ih =>
    have hd : d.isDigit = true := hds d (by simp)
    have ih' := ih (fun c hc => hds c (by simp [hc]))
    simp only [List.cons_append, splitDigits, hd, if_true, List.append_eq, ih']

/-! ## The JSON value model -/

mutual
inductive Json where
  | null : Json
  | bool (b : Bool) : Json
  | num (n : Int) : Json
  | str (s : List Char) : Json
  | arr (xs : JsonList) : Json
  | obj (fs : JsonFields) : Json

inductive JsonList where
  | nil : JsonList
  | cons (hd : Json) (tl : JsonList) : JsonList

inductive JsonFields where
  | nil : JsonFields
  | cons (key : List Char) (val : Json) (tl : JsonFields) : JsonFields
end

mutual
def Json.beq : Json → Json → Bool
  | .null, .null => true
  | .bool a, .bool b => a == b
  | .num a, .num b => a == b
  | .str a, .str b => a == b
  | .arr a, .arr b => JsonList.beq a b
  | .obj a, .obj b => JsonFields.beq a b
  | _, _ => false

def JsonList.beq : JsonList → JsonList → Bool
  | .nil, .nil => true
  | .cons a as, .cons b bs => Json.beq a b && JsonList.beq as bs
  | _, _ => false

def JsonFields.beq : JsonFields → JsonFields → Bool
  | .nil, .nil => true
  | .cons k v tl, .cons k' v' tl' => k == k' && Json.beq v v' && JsonFields.beq tl tl'
  | _, _ => false
end

mutual
theorem Json.beq_iff_json : ∀ a b : Json, Json.beq a b = true ↔ a = b
  | .null, b => by cases b <;> simp [Json.beq]
  | .bool x, b => by cases b <;> simp [Json.beq]
  | .num x, b => by cases b <;> simp [Json.beq]
  | .str x, b => by cases b <;> simp [Json.beq]
  | .arr xs, b => by
    cases b
    case arr ys => simpa [Json.beq] using JsonList.beq_iff_jsonList xs ys
    all_goals simp [Json.beq]
  | .obj fs, b => by
    cases b
    case obj gs => simpa [Json.beq] using JsonFields.beq_iff_jsonFields fs gs
    all_goals simp [Json.beq]

theorem JsonList.beq_iff_jsonList : ∀ a b : JsonList, JsonList.beq a b = true ↔ a = b
  | .nil, b => by cases b <;> simp [JsonList.beq]
  | .cons x xs, b => by
    cases b
    case nil => simp [JsonList.beq]
    case cons y ys =>
      simp [JsonList.beq, Json.beq_iff_json x y, JsonList.beq_iff_jsonList xs ys]

theorem JsonFields.beq_iff_jsonFields : ∀ a b : JsonFields, JsonFields.beq a b = true ↔ a = b
  | .nil, b => by cases b <;> simp [JsonFields.beq]
  | .cons k v tl, b => by
    cases b
    case nil => simp [JsonFields.beq]
    case cons k' v' tl' =>
      simp [JsonFields.beq, Json.beq_iff_json v v', JsonFields.beq_iff_jsonFields tl tl']
      tauto
end

instance : DecidableEq Json := fun a b =>
  decidable_of_iff (Json.beq a b = true) (Json.beq_iff_json a b)

instance : DecidableEq JsonList := fun a b =>
  decidable_of_iff (JsonList.beq a b = true) (JsonList.beq_iff_jsonList a b)

instance : DecidableEq JsonFields := fun a b =>
  decidable_of_iff (JsonFields.beq a b = true) (JsonFields.beq_iff_jsonFields a b)

/-- Escape a character for a JSON string literal: only the quote and the
backslash require escaping in the modelled value space. -/
def escChar (c : Char) : List Char :=
  if c = '"' ∨ c = '\\' then ['\\', c] else [c]

/-- Escape an entire string body. -/
def escStr (s : List Char) : List Char := s.flatMap escChar

/-- Decimal rendering of an integer. -/
def intToChars (n : Int) : List Char :=
  if n < 0 then '-' :: natToChars n.natAbs else natToChars n.natAbs

mutual
/-- Compact serialization of a JSON value (what the corpus writer and
`json.dumps` with separators produce). -/
def serialize : Json → List Char
  | .null => "null".toList
  | .bool true => "true".toList
  | .bool false => "false".toList
  | .num n => intToChars n
  | .str s => '"' :: (escStr s ++ ['"'])
  | .arr .nil => ['[', ']']
  | .arr (.cons v vs) => '[' :: (serialize v ++ elemsTailText vs)
  | .obj .nil => ['{', '}']
  | .obj (.cons k v tl) =>
    '{' :: (('"' :: (escStr k ++ '"' :: ':' :: serialize v)) ++ fieldsTailText tl)

/-- Serialization of the remainder of an array after its first element,
closing bracket included. -/
def elemsTailText : JsonList → List Char
  | .nil => [']']
  | .cons v vs => ',' :: (serialize v ++ elemsTailText vs)

/-- Serialization of the remainder of an object after its first pair,
closing brace included. -/
def fieldsTailText : JsonFields → List Char
  | .nil => ['}']
  | .cons k v tl => ',' :: (('"' :: (escStr k ++ '"' :: ':' :: serialize v)) ++ fieldsTailText tl)
end

/-- Serialization of one `"key":value` pair. -/
def kvText (k : List Char) (v : Json) : List Char :=
  '"' :: (escStr k ++ '"' :: ':' :: serialize v)

theorem serialize_obj_cons (k : List Char) (v : Json) (tl : JsonFields) :
    serialize (.obj (.cons k v tl)) = '{' :: (kvText k v ++ fieldsTailText tl) := by
  simp [serialize, kvText]

theorem fieldsTailText_cons (k : List Char) (v : Json) (tl : JsonFields) :
    fieldsTailText (.cons k v tl) = ',' :: (kvText k v ++ fieldsTailText tl) := by
  simp [fieldsTailText, kvText]

/-- A printable string body: no character below the control boundary, so the
serializer's escape set is exhaustive for it. -/
def strOk (s : List Char) : Bool := s.all (fun c => 32 ≤ c.toNat)

/-- Key list of a field sequence. -/
def fieldsKeys : JsonFields → List (List Char)
  | .nil => []
  | .cons k _ tl => k :: fieldsKeys tl

/-- No duplicates among a list of keys. -/
def nodupKeys : List (List Char) → Bool
  | [] => true
  | k :: ks => !(ks.contains k) && nodupKeys ks

mutual
/-- Well-formedness of a modelled JSON value: printable strings and keys,
duplicate-free keys (matching `json.loads` building a `dict`). -/
def wfJ : Json → Bool
  | .null => true
  | .bool _ => true
  | .num _ => true
  | .str s => strOk s
  | .arr xs => wfL xs
  | .obj fs => wfF fs && nodupKeys (fieldsKeys fs)

def wfL : JsonList → Bool
  | .nil => true
  | .cons v vs => wfJ v && wfL vs

def wfF : JsonFields → Bool
  | .nil => true
  | .cons k v tl => strOk k && wfJ v && wfF tl
end

/-! ## A model of `json.loads` (recursive descent with an explicit budget) -/

/-- Expect a literal character sequence, returning the remainder. -/
def expectChars : List Char → List Char → Option (List Char)
  | [], r => some r
  | _ :: _, [] => none
  | e :: es, c :: r => if c = e then expectChars es r else none

/-- Translate a JSON escape code to the character it denotes. -/
def unescape (c : Char) : Option Char :=
  if c = '"' then some '"'
  else if c = '\\' then some '\\'
  else if c = '/' then some '/'
  else if c = 'n' then some '\n'
  else if c = 't' then some '\t'
  else if c = 'r' then some '\r'
  else if c = 'b' then some (Char.ofNat 8)
  else if c = 'f' then some (Char.ofNat 12)
  else none

/-- Parse the body of a string literal after its opening quote; strict mode
rejects raw control characters, as `json.loads` does. -/
def parseStrBody : Nat → List Char → Option (List Char × List Char)
  | 0, _ => none
  | f + 1, cs =>
    match cs with
    | [] => none
    | c :: r =>
      if c = '"' then some ([], r)
      else if c = '\\' then
        match r with
        | [] => none
        | e :: r2 => do
          let ec ← unescape e
          let p ← parseStrBody f r2
          pure (ec :: p.1, p.2)
      else if 32 ≤ c.toNat then do
        let p ← parseStrBody f r
        pure (c :: p.1, p.2)
      else none

mutual
/-- Parse one JSON value, leading whitespace tolerated. -/
def parseVal : Nat → List Char → Option (Json × List Char)
  | 0, _ => none
  | f + 1, cs =>
    match skipWsL cs with
    | [] => none
    | c :: r =>
      if c = 'n' then (expectChars ['u', 'l', 'l'] r).map (fun r2 => (Json.null, r2))
      else if c = 't' then (expectChars ['r', 'u', 'e'] r).map (fun r2 => (Json.bool true, r2))
      else if c = 'f' then
        (expectChars ['a', 'l', 's', 'e'] r).map (fun r2 => (Json.bool false, r2))
      else if c = '"' then (parseStrBody f r).map (fun p => (Json.str p.1, p.2))
      else if c = '[' then
        match skipWsL r with
        | [] => none
        | c2 :: r2 =>
          if c2 = ']' then some (Json.arr .nil, r2)
          else do
            let pv ← parseVal f r
            let pt ← parseElemsTail f pv.2
            pure (Json.arr (.cons pv.1 pt.1), pt.2)
      else if c = '{' then
        match skipWsL r with
        | [] => none
        | c2 :: r2 =>
          if c2 = '}' then some (Json.obj .nil, r2)
          else if c2 = '"' then do
            let pk ← parseStrBody f r2
            match skipWsL pk.2 with
            | [] => none
            | c3 :: r3 =>
              if c3 = ':' then do
                let pv ← parseVal f r3
                let pt ← parseFieldsTail f pv.2
                pure (Json.obj (.cons pk.1 pv.1 pt.1), pt.2)
              else none
          else none
      else if c = '-' then
        let p := splitDigits r
        if p.1.isEmpty then none else some (Json.num (-(digitsToNat p.1 : Int)), p.2)
      else if c.isDigit then
        let p := splitDigits (c :: r)
        if p.1.isEmpty then none else some (Json.num (digitsToNat p.1 : Int), p.2)
      else none

/-- Parse the remainder of an array after its first element. -/
def parseElemsTail : Nat → List Char → Option (JsonList × List Char)
  | 0, _ => none
  | f + 1, cs =>
    match skipWsL cs with
    | [] => none
    | c :: r =>
      if c = ']' then some (.nil, r)
      else if c = ',' then do
        let pv ← parseVal f r
        let pt ← parseElemsTail f pv.2
        pure (.cons pv.1 pt.1, pt.2)
      else none

/-- Parse the remainder of an object after its first pair. -/
def parseFieldsTail : Nat → List Char → Option (JsonFields × List Char)
  | 0, _ => none
  | f + 1, cs =>
    match skipWsL cs with
    | [] => none
    | c :: r =>
      if c = '}' then some (.nil, r)
      else if c = ',' then
        match skipWsL r with
        | [] => none
        | c2 :: r2 =>
          if c2 = '"' then do
            let pk ← parseStrBody f r2
            match skipWsL pk.2 with
            | [] => none
            | c3 :: r3 =>
              if c3 = ':' then do
                let pv ← parseVal f r3
                let pt ← parseFieldsTail f pv.2
                pure (.cons pk.1 pv.1 pt.1, pt.2)
              else none
          else none
      else none
end

/-- Model of `json.loads`: parse one value and require only trailing
whitespace afterwards. -/
def loadsModel (cs : List Char) : Option Json :=
  match parseVal (cs.length + 1) cs with
  | some (j, rest) => if (skipWsL rest).isEmpty then some j else none
  | none => none

/-! ## The hand-rolled candidate scanner of `parse_contents_file` -/

/-- State of the brace/string scanner: pending escape, inside-string flag,
brace depth. -/
structure ScanSt where
  esc : Bool
  inStr : Bool
  depth : Nat
deriving DecidableEq

/-- Initial scanner state at the opening brace of a candidate. -/
def scanInit : ScanSt := ⟨false, false, 0⟩

/-- One step of the scanner, mirroring the loop body in
`parse_contents_file` (escape first, then backslash, quote, braces). -/
def scanStep (s : ScanSt) (c : Char) : ScanSt :=
  if s.esc then { s with esc := false }
  else if c = '\\' then { s with esc := true }
  else if c = '"' then { s with inStr := !s.inStr }
  else if !s.inStr && c = '{' then { s with depth := s.depth + 1 }
  else if !s.inStr && c = '}' then { s with depth := s.depth - 1 }
  else s

/-- Whether this character closes the candidate: an unescaped `}` outside a
string that returns the depth to zero. -/
def isClose (s : ScanSt) (c : Char) : Bool :=
  !s.esc && !s.inStr && (c = '}') && (s.depth = 1)

/-- Scan for the index (relative to the start of the scan) of the closing
brace of the current candidate. -/
def findEndAux : List Char → ScanSt → Nat → Option Nat
  | [], _, _ => none
  | c :: cs, s, i => if isClose s c then some i else findEndAux cs (scanStep s c) (i + 1)

/-- Fold the scanner over a character list. -/
def scanList (cs : List Char) (s : ScanSt) : ScanSt := cs.foldl scanStep s

theorem scanList_nil (s : ScanSt) : scanList [] s = s := rfl

theorem scanList_cons (c : Char) (cs : List Char) (s : ScanSt) :
    scanList (c :: cs) s = scanList cs (scanStep s c) := rfl

theorem scanList_append (xs ys : List Char) (s : ScanSt) :
    scanList (xs ++ ys) s = scanList ys (scanList xs s) := by
  simp [scanList, List.foldl_append]

theorem findEndAux_append (xs ys : List Char) (s : ScanSt) (i : Nat) :
    findEndAux (xs ++ ys) s i =
      match findEndAux xs s i with
      | some j => some j
      | none => findEndAux ys (scanList xs s) (i + xs.length) := by
  induction xs generalizing s i with
  | nil => simp [findEndAux, scanList_nil]
  | cons x xs ih =>
    simp only [List.cons_append, findEndAux]
    by_cases hx : isClose s x = true
    · simp [hx]
    · simp only [hx, Bool.false_eq_true, if_false, List.append_eq]
      rw [ih, scanList_cons]
      have : i + (x :: xs).length = i + 1 + xs.length := by simp; omega
      rw [this]

/-! ## The stream-recovery loop of `parse_contents_file` -/

/-- Truthiness-aware limit check for `if max_papers and paper_count >= max_papers`
(`None` and `0` are both falsy in Python). -/
def limitReached : Option Nat → Nat → Bool
  | none, _ => false
  | some m, c => !(m = 0) && (m ≤ c)

/-- The scan loop of `parse_contents_file`: skip whitespace and stray
characters one at a time; at `{` delimit a candidate with the scanner, try
to load it, advance past it either way, and stop early at the limit. When no
closing brace exists the loop breaks, discarding the rest of the stream.
The loop consumes at least one character per iteration, so a character
budget equal to the remaining length makes the recursion structural. -/
def parseLoopF : Nat → List Char → Option Nat → Nat → List Json → List Json
  | 0, _, _, _, acc => acc
  | fuel + 1, cs, maxPapers, count, acc =>
    match cs with
    | [] => acc
    | c :: rest =>
      if isWsChar c then parseLoopF fuel rest maxPapers count acc
      else if c ≠ '{' then parseLoopF fuel rest maxPapers count acc
      else
        match findEndAux (c :: rest) scanInit 0 with
        | none => acc
        | some i =>
          match loadsModel ((c :: rest).take (i + 1)) with
          | some j =>
            if limitReached maxPapers (count + 1) then acc ++ [j]
            else parseLoopF fuel ((c :: rest).drop (i + 1)) maxPapers (count + 1) (acc ++ [j])
          | none => parseLoopF fuel ((c :: rest).drop (i + 1)) maxPapers count acc

/-- Embedding of `DirectReasoningExtractor.parse_contents_file`: the list of
successfully recovered JSON objects, in stream order. -/
def parseContents (cs : List Char) (maxPapers : Option Nat) : List Json :=
  parseLoopF cs.length cs maxPapers 0 []

/-! ## Roundtrip: the loads model recovers every serialized value -/

theorem isDigit_facts {c : Char} (h : c.isDigit = true) :
    isWsChar c = false ∧ c ≠ 'n' ∧ c ≠ 't' ∧ c ≠ 'f' ∧ c ≠ '"' ∧ c ≠ '[' ∧
      c ≠ '{' ∧ c ≠ '-' ∧ c ≠ ']' ∧ c ≠ '}' ∧ c ≠ ',' := by
  simp [Char.isDigit, decide_eq_true_eq] at h
  refine ⟨?_, ?_, ?_, ?_, ?_, ?_, ?_, ?_, ?_, ?_, ?_⟩
  · simp only [isWsChar, Bool.or_eq_false_iff, decide_eq_false_iff_not]
    refine ⟨⟨⟨?_, ?_⟩, ?_⟩, ?_⟩ <;> (rintro rfl; exact absurd h (by decide))
  all_goals (rintro rfl; exact absurd h (by decide))

theorem natToChars_head (n : Nat) : ∃ d t, natToChars n = d :: t ∧ d.isDigit = true := by
  cases h : natToChars n with
  | nil => exact absurd h (natToChars_ne_nil n)
  | cons d t =>
    refine ⟨d, t, rfl, natToChars_digits n d ?_⟩
    rw [h]
    exact List.mem_cons_self d t

theorem fuel_succ {f : Nat} (h : 1 ≤ f) : ∃ f', f = f' + 1 := by
  cases f with
  | zero => omega
  | succ f' => exact ⟨f', rfl⟩

theorem strOk_cons {c : Char} {s : List Char} (h : strOk (c :: s) = true) :
    32 ≤ c.toNat ∧ strOk s = true := by
  simp [strOk] at h ⊢
  exact h

theorem parseStrBody_rt (s : List Char) : ∀ (f : Nat) (rest : List Char),
    strOk s = true → (escStr s ++ '"' :: rest).length ≤ f →
    parseStrBody f (escStr s ++ '"' :: rest) = some (s, rest) := by
  induction s with
  | nil =>
    intro f rest _ hf
    have he : escStr [] = [] := rfl
    rw [he] at hf ⊢
    obtain ⟨f', rfl⟩ := fuel_succ (f := f) (by have := hf; simp at this; omega)
    simp [parseStrBody]
  | cons c s ih =>
    intro f rest hok hf
    obtain ⟨hc32, hsok⟩ := strOk_cons hok
    by_cases hc : c = '"' ∨ c = '\\'
    · have he : escStr (c :: s) ++ '"' :: rest = '\\' :: c :: (escStr s ++ '"' :: rest) := by
        simp [escStr, escChar, hc]
      rw [he] at hf ⊢
      obtain ⟨f', rfl⟩ := fuel_succ (f := f) (by have := hf; simp at this; omega)
      have hu : unescape c = some c := by rcases hc with rfl | rfl <;> rfl
      have hrec := ih f' rest hsok (by have := hf; simp at this ⊢; omega)
      simp [parseStrBody, hu, hrec]
    · push_neg at hc
      have he : escStr (c :: s) ++ '"' :: rest = c :: (escStr s ++ '"' :: rest) := by
        simp [escStr, escChar, hc.1, hc.2]
      rw [he] at hf ⊢
      obtain ⟨f', rfl⟩ := fuel_succ (f := f) (by have := hf; simp at this; omega)
      have hrec := ih f' rest hsok (by have := hf; simp at this ⊢; omega)
      simp [parseStrBody, hc.1, hc.2, hc32, hrec]

theorem serialize_head (j : Json) : ∃ c t, serialize j = c :: t ∧ isWsChar c = false ∧
    c ≠ ']' ∧ c ≠ '}' := by
  cases j with
  | null =>
    refine ⟨'n', ['u', 'l', 'l'], ?_, by decide, by decide, by decide⟩
    simp [serialize]
  | bool b =>
    cases b with
    | false =>
      refine ⟨'f', ['a', 'l', 's', 'e'], ?_, by decide, by decide, by decide⟩
      simp [serialize]
    | true =>
      refine ⟨'t', ['r', 'u', 'e'], ?_, by decide, by decide, by decide⟩
      simp [serialize]
  | num n =>
    by_cases h : n < 0
    · refine ⟨'-', natToChars n.natAbs, ?_, by decide, by decide, by decide⟩
      simp [serialize, intToChars, h]
    · obtain ⟨d, t, hdt, hdig⟩ := natToChars_head n.natAbs
      obtain ⟨hws, _, _, _, _, _, _, _, hne1, hne2, _⟩ := isDigit_facts hdig
      refine ⟨d, t, ?_, hws, hne1, hne2⟩
      simp [serialize, intToChars, h, hdt]
  | str s =>
    refine ⟨'"', escStr s ++ ['"'], ?_, by decide, by decide, by decide⟩
    simp [serialize]
  | arr xs =>
    cases xs with
    | nil =>
      refine ⟨'[', [']'], ?_, by decide, by decide, by decide⟩
      simp [serialize]
    | cons v vs =>
      refine ⟨'[', serialize v ++ elemsTailText vs, ?_, by decide, by decide, by decide⟩
      simp [serialize]
  | obj fs =>
    cases fs with
    | nil =>
      refine ⟨'{', ['}'], ?_, by decide, by decide, by decide⟩
      simp [serialize]
    | cons k v tl =>
      refine ⟨'{', kvText k v ++ fieldsTailText tl, ?_, by decide, by decide, by decide⟩
      exact serialize_obj_cons k v tl

theorem digitFree_elemsTailText (xs : JsonList) (r : List Char) :
    digitFree (elemsTailText xs ++ r) = true := by
  cases xs with
  | nil =>
    have h1 : elemsTailText .nil = [']'] := by simp [elemsTailText]
    rw [h1]
    rfl
  | cons v vs =>
    have h1 : elemsTailText (.cons v vs) = ',' :: (serialize v ++ elemsTailText vs) := by
      simp [elemsTailText]
    rw [h1]
    rfl

theorem digitFree_fieldsTailText (fs : JsonFields) (r : List Char) :
    digitFree (fieldsTailText fs ++ r) = true := by
  cases fs with
  | nil =>
    have h1 : fieldsTailText .nil = ['}'] := by simp [fieldsTailText]
    rw [h1]
    rfl
  | cons k v tl =>
    rw [fieldsTailText_cons]
    rfl

mutual
theorem parseVal_rt : (j : Json) → (f : Nat) → (rest : List Char) → wfJ j = true →
    digitFree rest = true → (serialize j ++ rest).length ≤ f →
    parseVal f (serialize j ++ rest) = some (j, rest)
  | .null, f, rest, _, _, hf => by
    have hs : serialize .null = ['n', 'u', 'l', 'l'] := by simp [serialize]
    rw [hs] at hf ⊢
    obtain ⟨f', rfl⟩ := fuel_succ (f := f) (by have := hf; simp at this; omega)
    simp [parseVal, skipWsL_cons_of_not_ws (show isWsChar 'n' = false by decide), expectChars]
  | .bool true, f, rest, _, _, hf => by
    have hs : serialize (.bool true) = ['t', 'r', 'u', 'e'] := by simp [serialize]
    rw [hs] at hf ⊢
    obtain ⟨f', rfl⟩ := fuel_succ (f := f) (by have := hf; simp at this; omega)
    simp [parseVal, skipWsL_cons_of_not_ws (show isWsChar 't' = false by decide), expectChars]
  | .bool false, f, rest, _, _, hf => by
    have hs : serialize (.bool false) = ['f', 'a', 'l', 's', 'e'] := by simp [serialize]
    rw [hs] at hf ⊢
    obtain ⟨f', rfl⟩ := fuel_succ (f := f) (by have := hf; simp at this; omega)
    simp [parseVal, skipWsL_cons_of_not_ws (show isWsChar 'f' = false by decide), expectChars]
  | .num n, f, rest, _, hdf, hf => by
    obtain ⟨d, t, hdt, hdig⟩ := natToChars_head n.natAbs
    have hsplit : splitDigits (natToChars n.natAbs ++ rest) = (natToChars n.natAbs, rest) :=
      splitDigits_spec (natToChars_digits _) hdf
    have hval : digitsToNat (natToChars n.natAbs) = n.natAbs := digitsToNat_natToChars _
    by_cases hneg : n < 0
    · have hs : serialize (.num n) = '-' :: natToChars n.natAbs := by
        simp [serialize, intToChars, hneg]
      rw [hs] at hf ⊢
      obtain ⟨f', rfl⟩ := fuel_succ (f := f) (by have := hf; simp at this; omega)
      rw [hdt] at hsplit hf ⊢
      simp only [List.cons_append] at hsplit
      have hval' : digitsToNat (d :: t) = n.natAbs := by rw [← hdt]; exact hval
      simp [parseVal, skipWsL_cons_of_not_ws (show isWsChar '-' = false by decide),
        hsplit, hval', List.cons_append]
      rw [abs_of_neg hneg]
      exact neg_neg n
    · have hs : serialize (.num n) = natToChars n.natAbs := by
        simp [serialize, intToChars, hneg]
      rw [hs, hdt] at hf ⊢
      rw [hdt] at hsplit
      simp only [List.cons_append] at hsplit
      obtain ⟨f', rfl⟩ := fuel_succ (f := f) (by have := hf; simp at this; omega)
      obtain ⟨hws, hn1, hn2, hn3, hn4, hn5, hn6, hn7, _, _, _⟩ := isDigit_facts hdig
      have hval' : digitsToNat (d :: t) = n.natAbs := by rw [← hdt]; exact hval
      simp [parseVal, skipWsL_cons_of_not_ws hws, hn1, hn2, hn3, hn4, hn5, hn6, hn7,
        hdig, hsplit, hval', List.cons_append]
      omega
  | .str s, f, rest, hwf, _, hf => by
    have hs : serialize (.str s) ++ rest = '"' :: (escStr s ++ '"' :: rest) := by
      simp [serialize]
    rw [hs] at hf ⊢
    obtain ⟨f', rfl⟩ := fuel_succ (f := f) (by have := hf; simp at this; omega)
    have hok : strOk s = true := by simpa [wfJ] using hwf
    have hrec := parseStrBody_rt s f' rest hok (by have := hf; simp at this ⊢; omega)
    simp [parseVal, skipWsL_cons_of_not_ws (show isWsChar '"' = false by decide), hrec]
  | .arr .nil, f, rest, _, _, hf => by
    have hs : serialize (.arr .nil) ++ rest = '[' :: ']' :: rest := by simp [serialize]
    rw [hs] at hf ⊢
    obtain ⟨f', rfl⟩ := fuel_succ (f := f) (by have := hf; simp at this; omega)
    simp [parseVal, skipWsL_cons_of_not_ws (show isWsChar '[' = false by decide),
      skipWsL_cons_of_not_ws (show isWsChar ']' = false by decide)]
  | .arr (.cons v vs), f, rest, hwf, _, hf => by
    have hwf2 : wfJ v = true ∧ wfL vs = true := by
      simpa [wfJ, wfL] using hwf
    have hs : serialize (.arr (.cons v vs)) ++ rest =
        '[' :: (serialize v ++ (elemsTailText vs ++ rest)) := by
      simp [serialize]
    rw [hs] at hf ⊢
    obtain ⟨f', rfl⟩ := fuel_succ (f := f) (by have := hf; simp at this; omega)
    obtain ⟨c, t, hct, hcws, hcne, _⟩ := serialize_head v
    have hv := parseVal_rt v f' (elemsTailText vs ++ rest) hwf2.1
      (digitFree_elemsTailText vs rest) (by have := hf; simp at this ⊢; omega)
    have ht := parseElemsTail_rt vs f' rest hwf2.2
      (by have := hf; simp at this ⊢; omega)
    rw [hct] at hv ⊢
    simp only [List.cons_append] at hv
    simp [parseVal, skipWsL_cons_of_not_ws (show isWsChar '[' = false by decide),
      skipWsL_cons_of_not_ws hcws, hcne, hv, ht, List.cons_append]
  | .obj .nil, f, rest, _, _, hf => by
    have hs : serialize (.obj .nil) ++ rest = '{' :: '}' :: rest := by simp [serialize]
    rw [hs] at hf ⊢
    obtain ⟨f', rfl⟩ := fuel_succ (f := f) (by have := hf; simp at this; omega)
    simp [parseVal, skipWsL_cons_of_not_ws (show isWsChar '{' = false by decide),
      skipWsL_cons_of_not_ws (show isWsChar '}' = false by decide)]
  | .obj (.cons k v tl), f, rest, hwf, _, hf => by
    have hwf2 : strOk k = true ∧ wfJ v = true ∧ wfF tl = true := by
      simp [wfJ, wfF] at hwf
      exact ⟨hwf.1.1.1, hwf.1.1.2, hwf.1.2⟩
    have hs : serialize (.obj (.cons k v tl)) ++ rest =
        '{' :: '"' :: (escStr k ++ '"' :: (':' :: (serialize v ++ (fieldsTailText tl ++ rest)))) := by
      simp [serialize, kvText]
    rw [hs] at hf ⊢
    obtain ⟨f', rfl⟩ := fuel_succ (f := f) (by have := hf; simp at this; omega)
    have hk := parseStrBody_rt k f' (':' :: (serialize v ++ (fieldsTailText tl ++ rest)))
      hwf2.1 (by have := hf; simp at this ⊢; omega)
    have hv := parseVal_rt v f' (fieldsTailText tl ++ rest) hwf2.2.1
      (digitFree_fieldsTailText tl rest) (by have := hf; simp at this ⊢; omega)
    have ht := parseFieldsTail_rt tl f' rest hwf2.2.2
      (by have := hf; simp at this ⊢; omega)
    simp [parseVal, skipWsL_cons_of_not_ws (show isWsChar '{' = false by decide),
      skipWsL_cons_of_not_ws (show isWsChar '"' = false by decide),
      skipWsL_cons_of_not_ws (show isWsChar ':' = false by decide), hk, hv, ht]

theorem parseElemsTail_rt : (xs : JsonList) → (f : Nat) → (rest : List Char) →
    wfL xs = true → (elemsTailText xs ++ rest).length ≤ f →
    parseElemsTail f (elemsTailText xs ++ rest) = some (xs, rest)
  | .nil, f, rest, _, hf => by
    have hs : elemsTailText .nil ++ rest = ']' :: rest := by simp [elemsTailText]
    rw [hs] at hf ⊢
    obtain ⟨f', rfl⟩ := fuel_succ (f := f) (by have := hf; simp at this; omega)
    simp [parseElemsTail, skipWsL_cons_of_not_ws (show isWsChar ']' = false by decide)]
  | .cons v vs, f, rest, hwf, hf => by
    have hwf2 : wfJ v = true ∧ wfL vs = true := by simpa [wfL] using hwf
    have hs : elemsTailText (.cons v vs) ++ rest =
        ',' :: (serialize v ++ (elemsTailText vs ++ rest)) := by
      simp [elemsTailText]
    rw [hs] at hf ⊢
    obtain ⟨f', rfl⟩ := fuel_succ (f := f) (by have := hf; simp at this; omega)
    have hv := parseVal_rt v f' (elemsTailText vs ++ rest) hwf2.1
      (digitFree_elemsTailText vs rest) (by have := hf; simp at this ⊢; omega)
    have ht := parseElemsTail_rt vs f' rest hwf2.2
      (by have := hf; simp at this ⊢; omega)
    simp [parseElemsTail, skipWsL_cons_of_not_ws (show isWsChar ',' = false by decide), hv, ht]

theorem parseFieldsTail_rt : (fs : JsonFields) → (f : Nat) → (rest : List Char) →
    wfF fs = true → (fieldsTailText fs ++ rest).length ≤ f →
    parseFieldsTail f (fieldsTailText fs ++ rest) = some (fs, rest)
  | .nil, f, rest, _, hf => by
    have hs : fieldsTailText .nil ++ rest = '}' :: rest := by simp [fieldsTailText]
    rw [hs] at hf ⊢
    obtain ⟨f', rfl⟩ := fuel_succ (f := f) (by have := hf; simp at this; omega)
    simp [parseFieldsTail, skipWsL_cons_of_not_ws (show isWsChar '}' = false by decide)]
  | .cons k v tl, f, rest, hwf, hf => by
    have hwf2 : strOk k = true ∧ wfJ v = true ∧ wfF tl = true := by
      simp [wfF] at hwf
      exact ⟨hwf.1.1, hwf.1.2, hwf.2⟩
    have hs : fieldsTailText (.cons k v tl) ++ rest =
        ',' :: '"' :: (escStr k ++ '"' :: (':' :: (serialize v ++ (fieldsTailText tl ++ rest)))) := by
      simp [fieldsTailText, kvText]
    rw [hs] at hf ⊢
    obtain ⟨f', rfl⟩ := fuel_succ (f := f) (by have := hf; simp at this; omega)
    have hk := parseStrBody_rt k f' (':' :: (serialize v ++ (fieldsTailText tl ++ rest)))
      hwf2.1 (by have := hf; simp at this ⊢; omega)
    have hv := parseVal_rt v f' (fieldsTailText tl ++ rest) hwf2.2.1
      (digitFree_fieldsTailText tl rest) (by have := hf; simp at this ⊢; omega)
    have ht := parseFieldsTail_rt tl f' rest hwf2.2.2
      (by have := hf; simp at this ⊢; omega)
    simp [parseFieldsTail, skipWsL_cons_of_not_ws (show isWsChar ',' = false by decide),
      skipWsL_cons_of_not_ws (show isWsChar '"' = false by decide),
      skipWsL_cons_of_not_ws (show isWsChar ':' = false by decide), hk, hv, ht]
end

theorem loadsModel_serialize {j : Json} (hwf : wfJ j = true) :
    loadsModel (serialize j) = some j := by
  have h := parseVal_rt j ((serialize j).length + 1) [] hwf rfl (by simp)
  rw [List.append_nil] at h
  unfold loadsModel
  rw [h]
  simp [skipWsL]

/-! ## The scanner is neutral on serialized values -/

theorem findEndAux_chain {xs ys : List Char} {s1 s2 : ScanSt} {i : Nat}
    (hx : findEndAux xs s1 i = none) (hxs : scanList xs s1 = s2) :
    findEndAux (xs ++ ys) s1 i = findEndAux ys s2 (i + xs.length) := by
  rw [findEndAux_append, hx, hxs]

theorem scan_cons_neutral (c : Char) (cs : List Char) (d i : Nat) (h1 : c ≠ '\\')
    (h2 : c ≠ '"') (h3 : c ≠ '{') (h4 : c ≠ '}') :
    findEndAux (c :: cs) ⟨false, false, d⟩ i = findEndAux cs ⟨false, false, d⟩ (i + 1) ∧
    scanList (c :: cs) ⟨false, false, d⟩ = scanList cs ⟨false, false, d⟩ := by
  constructor
  · simp [findEndAux, isClose, scanStep, h1, h2, h3, h4]
  · rw [scanList_cons]
    congr 1
    simp [scanStep, h1, h2, h3, h4]

theorem neutralList_scan (cs : List Char)
    (h : ∀ c ∈ cs, c ≠ '\\' ∧ c ≠ '"' ∧ c ≠ '{' ∧ c ≠ '}') (d : Nat) :
    (∀ i, findEndAux cs ⟨false, false, d⟩ i = none) ∧
    scanList cs ⟨false, false, d⟩ = ⟨false, false, d⟩ := by
  induction cs with
  | nil => exact ⟨fun i => rfl, rfl⟩
  | cons c cs ih =>
    obtain ⟨h1, h2, h3, h4⟩ := h c (by simp)
    have ih' := ih (fun x hx => h x (by simp [hx]))
    constructor
    · intro i
      rw [(scan_cons_neutral c cs d i h1 h2 h3 h4).1]
      exact ih'.1 _
    · rw [(scan_cons_neutral c cs d 0 h1 h2 h3 h4).2]
      exact ih'.2

theorem escStr_scan (s : List Char) (d : Nat) :
    (∀ i, findEndAux (escStr s) ⟨false, true, d⟩ i = none) ∧
    scanList (escStr s) ⟨false, true, d⟩ = ⟨false, true, d⟩ := by
  induction s with
  | nil => exact ⟨fun i => rfl, rfl⟩
  | cons c s ih =>
    by_cases hc : c = '"' ∨ c = '\\'
    · have he : escStr (c :: s) = '\\' :: c :: escStr s := by simp [escStr, escChar, hc]
      rw [he]
      have hstep1 : scanStep ⟨false, true, d⟩ '\\' = ⟨true, true, d⟩ := by
        simp [scanStep]
      have hstep2 : scanStep ⟨true, true, d⟩ c = ⟨false, true, d⟩ := by
        simp [scanStep]
      constructor
      · intro i
        rw [show findEndAux ('\\' :: c :: escStr s) ⟨false, true, d⟩ i =
            findEndAux (escStr s) ⟨false, true, d⟩ (i + 1 + 1) by
          simp [findEndAux, isClose, hstep1, hstep2]]
        exact ih.1 _
      · rw [scanList_cons, hstep1, scanList_cons, hstep2]
        exact ih.2
    · push_neg at hc
      have he : escStr (c :: s) = c :: escStr s := by simp [escStr, escChar, hc.1, hc.2]
      rw [he]
      have hstep : scanStep ⟨false, true, d⟩ c = ⟨false, true, d⟩ := by
        simp [scanStep, hc.1, hc.2]
      constructor
      · intro i
        rw [show findEndAux (c :: escStr s) ⟨false, true, d⟩ i =
            findEndAux (escStr s) ⟨false, true, d⟩ (i + 1) by
          simp [findEndAux, isClose, hstep]]
        exact ih.1 _
      · rw [scanList_cons, hstep]
        exact ih.2

theorem strLit_scan (s : List Char) (d : Nat) :
    (∀ i, findEndAux ('"' :: (escStr s ++ ['"'])) ⟨false, false, d⟩ i = none) ∧
    scanList ('"' :: (escStr s ++ ['"'])) ⟨false, false, d⟩ = ⟨false, false, d⟩ := by
  have hq1 : scanStep ⟨false, false, d⟩ '"' = ⟨false, true, d⟩ := by simp [scanStep]
  have hq2 : scanStep ⟨false, true, d⟩ '"' = ⟨false, false, d⟩ := by simp [scanStep]
  have hbody := escStr_scan s d
  constructor
  · intro i
    rw [show findEndAux ('"' :: (escStr s ++ ['"'])) ⟨false, false, d⟩ i =
        findEndAux (escStr s ++ ['"']) ⟨false, true, d⟩ (i + 1) by
      simp [findEndAux, isClose, hq1]]
    rw [findEndAux_chain (hbody.1 _) hbody.2]
    rfl
  · rw [scanList_cons, hq1, scanList_append, hbody.2, scanList_cons, hq2, scanList_nil]

/-- Neutrality of one `"key":value` pair for a value whose own scan facts are
supplied (used with the mutual value lemma below). -/
theorem kv_scan_of {v : Json} (k : List Char) (d : Nat)
    (hfe : ∀ i, findEndAux (serialize v) ⟨false, false, d⟩ i = none)
    (hsc : scanList (serialize v) ⟨false, false, d⟩ = ⟨false, false, d⟩) :
    (∀ i, findEndAux (kvText k v) ⟨false, false, d⟩ i = none) ∧
    scanList (kvText k v) ⟨false, false, d⟩ = ⟨false, false, d⟩ := by
  have hk : kvText k v = ('"' :: (escStr k ++ ['"'])) ++ (':' :: serialize v) := by
    simp [kvText]
  rw [hk]
  have hstr := strLit_scan k d
  have hcolon := scan_cons_neutral ':' (serialize v) d 0 (by decide) (by decide) (by decide)
    (by decide)
  constructor
  · intro i
    rw [findEndAux_chain (hstr.1 _) hstr.2]
    rw [(scan_cons_neutral ':' (serialize v) d _ (by decide) (by decide) (by decide) (by decide)).1]
    exact hfe _
  · rw [scanList_append, hstr.2, hcolon.2, hsc]

mutual
theorem scanV : (j : Json) → (d : Nat) → 1 ≤ d →
    (∀ i, findEndAux (serialize j) ⟨false, false, d⟩ i = none) ∧
    scanList (serialize j) ⟨false, false, d⟩ = ⟨false, false, d⟩
  | .null, d, _ => by
    have hs : serialize .null = ['n', 'u', 'l', 'l'] := by simp [serialize]
    rw [hs]
    exact neutralList_scan _ (by decide) d
  | .bool true, d, _ => by
    have hs : serialize (.bool true) = ['t', 'r', 'u', 'e'] := by simp [serialize]
    rw [hs]
    exact neutralList_scan _ (by decide) d
  | .bool false, d, _ => by
    have hs : serialize (.bool false) = ['f', 'a', 'l', 's', 'e'] := by simp [serialize]
    rw [hs]
    exact neutralList_scan _ (by decide) d
  | .num n, d, _ => by
    have hs : serialize (.num n) = intToChars n := by simp [serialize]
    rw [hs]
    refine neutralList_scan _ ?_ d
    intro c hc
    have hdig : c.isDigit = true ∨ c = '-' := by
      unfold intToChars at hc
      split at hc
      · rcases List.mem_cons.mp hc with h | h
        · exact Or.inr h
        · exact Or.inl (natToChars_digits _ c h)
      · exact Or.inl (natToChars_digits _ c hc)
    rcases hdig with h | h
    · obtain ⟨-, -, -, -, h4, -, h6, -, -, h9, -⟩ := isDigit_facts h
      refine ⟨?_, h4, h6, h9⟩
      · rintro rfl
        simp [Char.isDigit, decide_eq_true_eq] at h
    · subst h
      exact ⟨by decide, by decide, by decide, by decide⟩
  | .str s, d, _ => by
    have hs : serialize (.str s) = '"' :: (escStr s ++ ['"']) := by simp [serialize]
    rw [hs]
    exact strLit_scan s d
  | .arr .nil, d, _ => by
    have hs : serialize (.arr .nil) = ['[', ']'] := by simp [serialize]
    rw [hs]
    exact neutralList_scan _ (by decide) d
  | .arr (.cons v vs), d, hd => by
    have hs : serialize (.arr (.cons v vs)) = '[' :: (serialize v ++ elemsTailText vs) := by
      simp [serialize]
    rw [hs]
    have hv := scanV v d hd
    have ht := scanET vs d hd
    constructor
    · intro i
      rw [(scan_cons_neutral '[' _ d i (by decide) (by decide) (by decide) (by decide)).1]
      rw [findEndAux_chain (hv.1 _) hv.2]
      exact ht.1 _
    · rw [(scan_cons_neutral '[' _ d 0 (by decide) (by decide) (by decide) (by decide)).2]
      rw [scanList_append, hv.2]
      exact ht.2
  | .obj .nil, d, hd => by
    have hs : serialize (.obj .nil) = ['{', '}'] := by simp [serialize]
    rw [hs]
    have hopen : scanStep ⟨false, false, d⟩ '{' = ⟨false, false, d + 1⟩ := by simp [scanStep]
    have hclosed : scanStep ⟨false, false, d + 1⟩ '}' = ⟨false, false, d⟩ := by
      simp [scanStep]
    constructor
    · intro i
      have h1 : isClose ⟨false, false, d⟩ '{' = false := by simp [isClose]
      have h2 : isClose ⟨false, false, d + 1⟩ '}' = false := by simp [isClose]; omega
      simp [findEndAux, h1, h2, hopen, hclosed]
    · rw [scanList_cons, hopen, scanList_cons, hclosed, scanList_nil]
  | .obj (.cons k v tl), d, hd => by
    have hs : serialize (.obj (.cons k v tl)) = '{' :: (kvText k v ++ fieldsTailText tl) :=
      serialize_obj_cons k v tl
    rw [hs]
    have hopen : scanStep ⟨false, false, d⟩ '{' = ⟨false, false, d + 1⟩ := by simp [scanStep]
    have hv := scanV v (d + 1) (by omega)
    have hkv := kv_scan_of k (d + 1) hv.1 hv.2
    have ht := scanFT tl (d + 1) (by omega)
    have hdd : d + 1 - 1 = d := by omega
    constructor
    · intro i
      have h1 : isClose ⟨false, false, d⟩ '{' = false := by simp [isClose]
      rw [show findEndAux ('{' :: (kvText k v ++ fieldsTailText tl)) ⟨false, false, d⟩ i =
          findEndAux (kvText k v ++ fieldsTailText tl) ⟨false, false, d + 1⟩ (i + 1) by
        simp [findEndAux, h1, hopen]]
      rw [findEndAux_chain (hkv.1 _) hkv.2]
      exact ht.1 _
    · rw [scanList_cons, hopen, scanList_append, hkv.2, ht.2, hdd]

theorem scanET : (xs : JsonList) → (d : Nat) → 1 ≤ d →
    (∀ i, findEndAux (elemsTailText xs) ⟨false, false, d⟩ i = none) ∧
    scanList (elemsTailText xs) ⟨false, false, d⟩ = ⟨false, false, d⟩
  | .nil, d, _ => by
    have hs : elemsTailText .nil = [']'] := by simp [elemsTailText]
    rw [hs]
    exact neutralList_scan _ (by decide) d
  | .cons v vs, d, hd => by
    have hs : elemsTailText (.cons v vs) = ',' :: (serialize v ++ elemsTailText vs) := by
      simp [elemsTailText]
    rw [hs]
    have hv := scanV v d hd
    have ht := scanET vs d hd
    constructor
    · intro i
      rw [(scan_cons_neutral ',' _ d i (by decide) (by decide) (by decide) (by decide)).1]
      rw [findEndAux_chain (hv.1 _) hv.2]
      exact ht.1 _
    · rw [(scan_cons_neutral ',' _ d 0 (by decide) (by decide) (by decide) (by decide)).2]
      rw [scanList_append, hv.2]
      exact ht.2

theorem scanFT : (fs : JsonFields) → (d : Nat) → 2 ≤ d →
    (∀ i, findEndAux (fieldsTailText fs) ⟨false, false, d⟩ i = none) ∧
    scanList (fieldsTailText fs) ⟨false, false, d⟩ = ⟨false, false, d - 1⟩
  | .nil, d, hd => by
    have hs : fieldsTailText .nil = ['}'] := by simp [fieldsTailText]
    rw [hs]
    have h2 : isClose ⟨false, false, d⟩ '}' = false := by simp [isClose]; omega
    have hstep : scanStep ⟨false, false, d⟩ '}' = ⟨false, false, d - 1⟩ := by simp [scanStep]
    constructor
    · intro i
      simp [findEndAux, h2]
    · rw [scanList_cons, hstep, scanList_nil]
  | .cons k v tl, d, hd => by
    have hs : fieldsTailText (.cons k v tl) = ',' :: (kvText k v ++ fieldsTailText tl) :=
      fieldsTailText_cons k v tl
    rw [hs]
    have hv := scanV v d (by omega)
    have hkv := kv_scan_of k d hv.1 hv.2
    have ht := scanFT tl d hd
    constructor
    · intro i
      rw [(scan_cons_neutral ',' _ d i (by decide) (by decide) (by decide) (by decide)).1]
      rw [findEndAux_chain (hkv.1 _) hkv.2]
      exact ht.1 _
    · rw [(scan_cons_neutral ',' _ d 0 (by decide) (by decide) (by decide) (by decide)).2]
      rw [scanList_append, hkv.2]
      exact ht.2
end

/-! ## Candidate delimitation for whole serialized objects -/

theorem scanFT_close : (fs : JsonFields) → ∀ (i : Nat) (rest : List Char),
    findEndAux (fieldsTailText fs ++ rest) ⟨false, false, 1⟩ i =
      some (i + (fieldsTailText fs).length - 1)
  | .nil, i, rest => by
    have hs : fieldsTailText .nil = ['}'] := by simp [fieldsTailText]
    rw [hs]
    have hcl : isClose ⟨false, false, 1⟩ '}' = true := by simp [isClose]
    simp [findEndAux, hcl]
  | .cons k v tl, i, rest => by
    have hs : fieldsTailText (.cons k v tl) = ',' :: (kvText k v ++ fieldsTailText tl) :=
      fieldsTailText_cons k v tl
    rw [hs]
    have hv := scanV v 1 (by omega)
    have hkv := kv_scan_of k 1 hv.1 hv.2
    have hstep := scan_cons_neutral ',' (kvText k v ++ (fieldsTailText tl ++ rest)) 1 i
      (by decide) (by decide) (by decide) (by decide)
    simp only [List.cons_append, List.append_assoc]
    rw [hstep.1, findEndAux_chain (hkv.1 _) hkv.2, scanFT_close tl _ rest]
    simp [List.length_append]
    omega

theorem findEnd_obj : (fs : JsonFields) → (rest : List Char) →
    findEndAux (serialize (.obj fs) ++ rest) scanInit 0 =
      some ((serialize (.obj fs)).length - 1)
  | .nil, rest => by
    have hs : serialize (.obj .nil) = ['{', '}'] := by simp [serialize]
    rw [hs]
    have h1 : isClose ⟨false, false, 0⟩ '{' = false := by simp [isClose]
    have h2 : isClose ⟨false, false, 1⟩ '}' = true := by simp [isClose]
    have hstep : scanStep ⟨false, false, 0⟩ '{' = ⟨false, false, 1⟩ := by simp [scanStep]
    simp [findEndAux, scanInit, h1, h2, hstep]
  | .cons k v tl, rest => by
    have hs : serialize (.obj (.cons k v tl)) = '{' :: (kvText k v ++ fieldsTailText tl) :=
      serialize_obj_cons k v tl
    rw [hs]
    have h1 : isClose ⟨false, false, 0⟩ '{' = false := by simp [isClose]
    have hstep : scanStep ⟨false, false, 0⟩ '{' = ⟨false, false, 1⟩ := by simp [scanStep]
    have hv := scanV v 1 (by omega)
    have hkv := kv_scan_of k 1 hv.1 hv.2
    simp only [List.cons_append, List.append_assoc]
    rw [show findEndAux ('{' :: (kvText k v ++ (fieldsTailText tl ++ rest))) scanInit 0 =
        findEndAux (kvText k v ++ (fieldsTailText tl ++ rest)) ⟨false, false, 1⟩ 1 by
      simp [findEndAux, scanInit, h1, hstep]]
    rw [findEndAux_chain (hkv.1 _) hkv.2, scanFT_close tl _ rest]
    simp [List.length_append]
    omega

/-! ## Streams of valid objects, delimitable corrupt fragments and noise -/

/-- One piece of a concatenated corpus stream: a serialized JSON object, a
corrupt fragment, or loose characters between candidates. -/
inductive StreamItem where
  | valid (j : Json) : StreamItem
  | corrupt (s : List Char) : StreamItem
  | noise (s : List Char) : StreamItem

/-- The raw text contributed by one stream item. -/
def itemText : StreamItem → List Char
  | .valid j => serialize j
  | .corrupt s => s
  | .noise s => s

/-- The raw text of a whole stream. -/
def streamText : List StreamItem → List Char
  | [] => []
  | it :: items => itemText it ++ streamText items

/-- Whether a modelled JSON value is an object. -/
def isObjJson : Json → Bool
  | .obj _ => true
  | _ => false

/-- Conditions under which one item behaves as intended: a valid item is a
well-formed object; a corrupt item is a candidate that the scanner delimits
exactly (balanced braces outside of properly closed strings) but that fails
to load; noise contains no opening brace at all. -/
def ItemOk : StreamItem → Prop
  | .valid j => isObjJson j = true ∧ wfJ j = true
  | .corrupt s => (∃ t, s = '{' :: t) ∧ findEndAux s scanInit 0 = some (s.length - 1) ∧
      loadsModel s = none
  | .noise s => '{' ∉ s

/-- The JSON objects of the valid items, in order. -/
def validJsons : List StreamItem → List Json
  | [] => []
  | .valid j :: items => j :: validJsons items
  | .corrupt _ :: items => validJsons items
  | .noise _ :: items => validJsons items

/-- Budget consumed by one stream item: noise is skipped character by
character, a delimited candidate costs one loop iteration. -/
def itemFuel : StreamItem → Nat
  | .noise s => s.length
  | _ => 1

/-- Budget consumed by a whole stream. -/
def streamFuel : List StreamItem → Nat
  | [] => 0
  | it :: items => itemFuel it + streamFuel items

theorem parseLoopF_nil (fuel : Nat) (mp : Option Nat) (cnt : Nat) (acc : List Json) :
    parseLoopF fuel [] mp cnt acc = acc := by
  cases fuel <;> rfl

theorem parseLoopF_noise {s : List Char} (h : '{' ∉ s) (fuel : Nat) (cs : List Char)
    (mp : Option Nat) (cnt : Nat) (acc : List Json) :
    parseLoopF (s.length + fuel) (s ++ cs) mp cnt acc = parseLoopF fuel cs mp cnt acc := by
  induction s with
  | nil => simp
  | cons c s ih =>
    have hc : ¬(c = '{') := by
      intro hc
      exact h (by simp [hc])
    have hs : '{' ∉ s := fun hx => h (by simp [hx])
    rw [show (c :: s).length + fuel = (s.length + fuel) + 1 by simp; omega]
    rw [List.cons_append]
    by_cases hw : isWsChar c
    · rw [show parseLoopF ((s.length + fuel) + 1) (c :: (s ++ cs)) mp cnt acc =
          parseLoopF (s.length + fuel) (s ++ cs) mp cnt acc by
        simp [parseLoopF, hw]]
      exact ih hs
    · rw [show parseLoopF ((s.length + fuel) + 1) (c :: (s ++ cs)) mp cnt acc =
          parseLoopF (s.length + fuel) (s ++ cs) mp cnt acc by
        simp [parseLoopF, hw, hc]]
      exact ih hs

theorem parseLoopF_candidate {s t : List Char} (hhead : s = '{' :: t)
    (hfe : findEndAux s scanInit 0 = some (s.length - 1)) (fuel : Nat) (cs : List Char)
    (mp : Option Nat) (cnt : Nat) (acc : List Json) :
    parseLoopF (fuel + 1) (s ++ cs) mp cnt acc =
      match loadsModel s with
      | some j =>
        if limitReached mp (cnt + 1) then acc ++ [j]
        else parseLoopF fuel cs mp (cnt + 1) (acc ++ [j])
      | none => parseLoopF fuel cs mp cnt acc := by
  subst hhead
  have hfe1 : findEndAux ('{' :: t) scanInit 0 = some t.length := by
    simpa using hfe
  have hfe2 : findEndAux ('{' :: (t ++ cs)) scanInit 0 = some t.length := by
    rw [show '{' :: (t ++ cs) = ('{' :: t) ++ cs by simp, findEndAux_append, hfe1]
  have htake : List.take t.length (t ++ cs) = t := List.take_left t cs
  have hdrop : List.drop t.length (t ++ cs) = cs := List.drop_left t cs
  rw [List.cons_append]
  simp [parseLoopF, (by decide : isWsChar '{' = false), hfe2, htake, hdrop]

theorem parseLoopF_stream (items : List StreamItem) (hok : ∀ it ∈ items, ItemOk it)
    (extra : Nat) (cnt : Nat) (acc : List Json) :
    parseLoopF (streamFuel items + extra) (streamText items) none cnt acc =
      acc ++ validJsons items := by
  induction items generalizing cnt acc with
  | nil =>
    rw [show streamText [] = [] from rfl, parseLoopF_nil]
    simp [streamFuel, validJsons]
  | cons it items ih =>
    have hit : ItemOk it := hok it (by simp)
    have hrest : ∀ x ∈ items, ItemOk x := fun x hx => hok x (by simp [hx])
    cases it with
    | noise s =>
      rw [show streamText (.noise s :: items) = s ++ streamText items from rfl]
      rw [show streamFuel (.noise s :: items) + extra =
          s.length + (streamFuel items + extra) by simp [streamFuel, itemFuel]; omega]
      rw [parseLoopF_noise hit _ _ _ _ _, ih hrest, validJsons]
    | corrupt s =>
      obtain ⟨⟨t, ht⟩, hfe, hload⟩ := hit
      rw [show streamText (.corrupt s :: items) = s ++ streamText items from rfl]
      rw [show streamFuel (.corrupt s :: items) + extra =
          (streamFuel items + extra) + 1 by simp [streamFuel, itemFuel]; omega]
      rw [parseLoopF_candidate ht hfe _ _ _ _ _]
      simp only [hload]
      rw [ih hrest]
      rfl
    | valid j =>
      obtain ⟨hobj, hwf⟩ := hit
      obtain ⟨fs, rfl⟩ : ∃ fs, j = .obj fs := by
        cases j <;> simp [isObjJson] at hobj ⊢
      have hex : ∃ t, serialize (.obj fs) = '{' :: t := by
        cases fs with
        | nil => exact ⟨['}'], by simp [serialize]⟩
        | cons k v tl => exact ⟨kvText k v ++ fieldsTailText tl, serialize_obj_cons k v tl⟩
      obtain ⟨t, ht⟩ := hex
      have hfe : findEndAux (serialize (.obj fs)) scanInit 0 =
          some ((serialize (.obj fs)).length - 1) := by
        have h0 := findEnd_obj fs []
        rwa [List.append_nil] at h0
      have hload : loadsModel (serialize (.obj fs)) = some (.obj fs) := loadsModel_serialize hwf
      rw [show streamText (.valid (.obj fs) :: items) =
        serialize (.obj fs) ++ streamText items from rfl]
      rw [show streamFuel (.valid (.obj fs) :: items) + extra =
          (streamFuel items + extra) + 1 by simp [streamFuel, itemFuel]; omega]
      rw [parseLoopF_candidate ht hfe _ _ _ _ _]
      simp only [hload, limitReached, Bool.false_eq_true, if_false]
      rw [ih hrest]
      rw [show validJsons (.valid (.obj fs) :: items) = .obj fs :: validJsons items from rfl]
      simp

theorem parseLoopF_limited (items : List StreamItem) (hok : ∀ it ∈ items, ItemOk it)
    (fs : JsonFields) (hwf : wfJ (.obj fs) = true) (suffix : List Char) (k : Nat)
    (hk : k ≠ 0) (extra : Nat) : ∀ (cnt : Nat) (acc : List Json),
    cnt + (validJsons items).length + 1 = k →
    parseLoopF (streamFuel items + 1 + extra)
        (streamText items ++ (serialize (.obj fs) ++ suffix)) (some k) cnt acc =
      acc ++ validJsons items ++ [.obj fs] := by
  induction items with
  | nil =>
    intro cnt acc hcnt
    have hex : ∃ t, serialize (.obj fs) = '{' :: t := by
      cases fs with
      | nil => exact ⟨['}'], by simp [serialize]⟩
      | cons k' v tl => exact ⟨kvText k' v ++ fieldsTailText tl, serialize_obj_cons k' v tl⟩
    obtain ⟨t, ht⟩ := hex
    have hfe : findEndAux (serialize (.obj fs)) scanInit 0 =
        some ((serialize (.obj fs)).length - 1) := by
      have h0 := findEnd_obj fs []
      rwa [List.append_nil] at h0
    have hload : loadsModel (serialize (.obj fs)) = some (.obj fs) := loadsModel_serialize hwf
    rw [show streamText [] ++ (serialize (.obj fs) ++ suffix) =
        serialize (.obj fs) ++ suffix from rfl]
    rw [show streamFuel [] + 1 + extra = extra + 1 by simp [streamFuel]; omega]
    rw [parseLoopF_candidate ht hfe _ _ _ _ _]
    simp only [hload]
    have hlim : limitReached (some k) (cnt + 1) = true := by
      simp [validJsons] at hcnt
      simp [limitReached, hk]
      omega
    rw [hlim]
    simp [validJsons]
  | cons it items ih =>
    intro cnt acc hcnt
    have hit : ItemOk it := hok it (by simp)
    have hrest : ∀ x ∈ items, ItemOk x := fun x hx => hok x (by simp [hx])
    cases it with
    | noise s =>
      rw [show streamText (.noise s :: items) ++ (serialize (.obj fs) ++ suffix) =
          s ++ (streamText items ++ (serialize (.obj fs) ++ suffix)) by
        simp [streamText, itemText]]
      rw [show streamFuel (.noise s :: items) + 1 + extra =
          s.length + (streamFuel items + 1 + extra) by simp [streamFuel, itemFuel]; omega]
      rw [parseLoopF_noise hit _ _ _ _ _]
      exact ih hrest cnt acc (by simpa [validJsons] using hcnt)
    | corrupt s =>
      obtain ⟨⟨t, ht⟩, hfe, hload⟩ := hit
      rw [show streamText (.corrupt s :: items) ++ (serialize (.obj fs) ++ suffix) =
          s ++ (streamText items ++ (serialize (.obj fs) ++ suffix)) by
        simp [streamText, itemText]]
      rw [show streamFuel (.corrupt s :: items) + 1 + extra =
          (streamFuel items + 1 + extra) + 1 by simp [streamFuel, itemFuel]; omega]
      rw [parseLoopF_candidate ht hfe _ _ _ _ _]
      simp only [hload]
      exact ih hrest cnt acc (by simpa [validJsons] using hcnt)
    | valid j =>
      obtain ⟨hobj, hwfj⟩ := hit
      obtain ⟨gs, rfl⟩ : ∃ gs, j = .obj gs := by
        cases j <;> simp [isObjJson] at hobj ⊢
      have hex : ∃ t, serialize (.obj gs) = '{' :: t := by
        cases gs with
        | nil => exact ⟨['}'], by simp [serialize]⟩
        | cons k' v tl => exact ⟨kvText k' v ++ fieldsTailText tl, serialize_obj_cons k' v tl⟩
      obtain ⟨t, ht⟩ := hex
      have hfe : findEndAux (serialize (.obj gs)) scanInit 0 =
          some ((serialize (.obj gs)).length - 1) := by
        have h0 := findEnd_obj gs []
        rwa [List.append_nil] at h0
      have hload : loadsModel (serialize (.obj gs)) = some (.obj gs) :=
        loadsModel_serialize hwfj
      rw [show streamText (.valid (.obj gs) :: items) ++ (serialize (.obj fs) ++ suffix) =
          serialize (.obj gs) ++ (streamText items ++ (serialize (.obj fs) ++ suffix)) by
        simp [streamText, itemText]]
      rw [show streamFuel (.valid (.obj gs) :: items) + 1 + extra =
          (streamFuel items + 1 + extra) + 1 by simp [streamFuel, itemFuel]; omega]
      rw [parseLoopF_candidate ht hfe _ _ _ _ _]
      simp only [hload]
      have hcnt' : (cnt + 1) + (validJsons items).length + 1 = k := by
        simp [validJsons] at hcnt
        omega
      have hlim : limitReached (some k) (cnt + 1) = false := by
        simp [limitReached, hk]
        omega
      rw [hlim]
      simp only [Bool.false_eq_true, if_false]
      rw [ih hrest (cnt + 1) (acc ++ [Json.obj gs]) hcnt']
      rw [show validJsons (.valid (.obj gs) :: items) = .obj gs :: validJsons items from rfl]
      simp

theorem streamFuel_le (items : List StreamItem) (hok : ∀ it ∈ items, ItemOk it) :
    streamFuel items ≤ (streamText items).length := by
  induction items with
  | nil => simp [streamFuel, streamText]
  | cons it items ih =>
    have hit := hok it (by simp)
    have hrest := ih (fun x hx => hok x (by simp [hx]))
    cases it with
    | noise s =>
      simp [streamFuel, itemFuel, streamText, itemText, List.length_append]
      omega
    | corrupt s =>
      obtain ⟨⟨t, ht⟩, -, -⟩ := hit
      subst ht
      simp [streamFuel, itemFuel, streamText, itemText, List.length_append]
      omega
    | valid j =>
      obtain ⟨hobj, -⟩ := hit
      obtain ⟨fs, rfl⟩ : ∃ fs, j = .obj fs := by
        cases j <;> simp [isObjJson] at hobj ⊢
      have hse : 1 ≤ (serialize (Json.obj fs)).length := by
        cases fs <;> simp [serialize]
      simp [streamFuel, itemFuel, streamText, itemText, List.length_append]
      omega

/-- Sample record `\x7b"a":1\x7d`. -/
def sampleObj : Json := Json.obj (.cons ['a'] (Json.num 1) .nil)

/-- Sample record with a brace inside a string value: `\x7b"b":"x\x7by"\x7d`. -/
def sampleObj2 : Json := Json.obj (.cons ['b'] (Json.str ['x', '{', 'y']) .nil)

/-- A concrete stream: a delimitable corrupt candidate, noise, and two valid
records interspersed. -/
def c1Items : List StreamItem :=
  [.corrupt ['{', 'b', 'd', '}'], .noise [' ', 'q'], .valid sampleObj,
   .noise ['\n'], .valid sampleObj2]

/-- C1, counterexample: the claim promises that for any N valid objects with M
corrupted fragments interspersed the parser returns exactly the N source
objects.  With the corrupted fragment `\x7b"x\x7d ` (an unterminated string)
followed by the perfectly valid object `\x7b"a":1\x7d`, the scanner's
in-string flag swallows the valid object and `parse_contents_file` returns
zero records instead of one. -/
theorem c1_counterexample :
    parseContents (('{' :: '"' :: 'x' :: '}' :: ' ' :: []) ++ serialize sampleObj) none = []
    ∧ loadsModel (serialize sampleObj) = some sampleObj ∧ wfJ sampleObj = true := by
  refine ⟨by decide, by decide, by decide⟩

/-- C1, amended: for a stream concatenated from valid JSON objects, corrupted
fragments that the brace/string scanner can delimit (balanced braces outside
properly closed strings) and brace-free noise, `parse_contents_file` with no
limit returns exactly the valid objects, field for field, in stream order;
each corrupt candidate is skipped without aborting the parse. -/
theorem c1_stream_recovery (items : List StreamItem)
    (hok : ∀ it ∈ items, ItemOk it) :
    parseContents (streamText items) none = validJsons items := by
  unfold parseContents
  obtain ⟨extra, hex⟩ := Nat.exists_eq_add_of_le (streamFuel_le items hok)
  rw [hex]
  simpa using parseLoopF_stream items hok extra 0 []

/-- C1, witness: the amended theorem evaluated on the concrete stream
`c1Items` recovers exactly its two valid records. -/
theorem c1_stream_recovery_witness :
    parseContents (streamText c1Items) none = [sampleObj, sampleObj2] := by
  have hok : ∀ it ∈ c1Items, ItemOk it := by
    intro it hit
    simp [c1Items] at hit
    rcases hit with rfl | rfl | rfl | rfl | rfl
    · exact ⟨⟨['b', 'd', '}'], rfl⟩, by decide, by decide⟩
    · exact (by decide : ('{' : Char) ∉ [' ', 'q'])
    · exact ⟨by decide, by decide⟩
    · exact (by decide : ('{' : Char) ∉ ['\n'])
    · exact ⟨by decide, by decide⟩
  exact c1_stream_recovery c1Items hok

/-- C9: with a record limit `k ≥ 1` and a stream whose prefix holds `k - 1`
valid objects (failed candidates and noise not counting), followed by a k-th
valid object and then an arbitrary remainder, `parse_contents_file` returns
exactly the first k successfully parsed objects and stops scanning
immediately on producing the k-th, whatever the remainder holds. -/
theorem c9_limit_early_exit (items : List StreamItem) (hok : ∀ it ∈ items, ItemOk it)
    (fs : JsonFields) (hwf : wfJ (Json.obj fs) = true) (suffix : List Char) (k : Nat)
    (hk : k ≠ 0) (hcount : (validJsons items).length + 1 = k) :
    parseContents (streamText items ++ (serialize (Json.obj fs) ++ suffix)) (some k) =
      validJsons items ++ [Json.obj fs] := by
  unfold parseContents
  have hse : 1 ≤ (serialize (Json.obj fs)).length := by
    cases fs <;> simp [serialize]
  have h1 : streamFuel items + 1 ≤
      (streamText items ++ (serialize (Json.obj fs) ++ suffix)).length := by
    have := streamFuel_le items hok
    simp [List.length_append]
    omega
  obtain ⟨extra, hex⟩ := Nat.exists_eq_add_of_le h1
  rw [hex]
  simpa using parseLoopF_limited items hok fs hwf suffix k hk extra 0 [] (by omega)

/-- C9, witness: a stream holding one valid record, a corrupt candidate and a
second valid record followed by garbage, parsed with limit 2, yields exactly
the two records; the garbage suffix is never reached. -/
theorem c9_limit_early_exit_witness :
    parseContents (streamText [.valid sampleObj, .corrupt ['{', 'b', 'd', '}']] ++
      (serialize (Json.obj (.cons ['b'] (Json.str ['x', '{', 'y']) .nil)) ++
        ('{' :: '"' :: 'z' :: []))) (some 2) =
      [sampleObj, Json.obj (.cons ['b'] (Json.str ['x', '{', 'y']) .nil)] := by
  have hok : ∀ it ∈ [StreamItem.valid sampleObj, .corrupt ['{', 'b', 'd', '}']],
      ItemOk it := by
    intro it hit
    simp at hit
    rcases hit with rfl | rfl
    · exact ⟨by decide, by decide⟩
    · exact ⟨⟨['b', 'd', '}'], rfl⟩, by decide, by decide⟩
  exact c9_limit_early_exit [.valid sampleObj, .corrupt ['{', 'b', 'd', '}']] hok
    (.cons ['b'] (Json.str ['x', '{', 'y']) .nil) (by decide)
    ('{' :: '"' :: 'z' :: []) 2 (by decide) (by decide)

/-! ## The key-content selector of `extract_key_content` -/

/-- One entry of a section's `section_text` list: a plain string, or a dict
whose `content` field holds the string. -/
inductive TextItem where
  | plain (s : List Char) : TextItem
  | contentDict (s : List Char) : TextItem
deriving DecidableEq

/-- The string the selector reads from a text item. -/
def textOf : TextItem → List Char
  | .plain s => s
  | .contentDict s => s

/-- A section of a parsed paper: `section_title` and `section_text`. -/
structure PaperSection where
  sectionTitle : List Char
  sectionTexts : List TextItem
deriving DecidableEq

/-- Whitespace removed by Python `str.strip`. -/
def isPySpace (c : Char) : Bool :=
  c = ' ' || c = '\t' || c = '\n' || c = '\r' || c = Char.ofNat 11 || c = Char.ofNat 12

/-- Python `str.strip`. -/
def pyStrip (s : List Char) : List Char :=
  ((s.dropWhile isPySpace).reverse.dropWhile isPySpace).reverse

/-- ASCII lower-casing, Python `str.lower` on the titles in play. -/
def lowerStr (s : List Char) : List Char := s.map Char.toLower

/-- ASCII upper-casing, Python `str.upper`. -/
def upperStr (s : List Char) : List Char := s.map Char.toUpper

/-- Whether `needle` occurs at the start of `hay`. -/
def startsWithL : List Char → List Char → Bool
  | [], _ => true
  | _ :: _, [] => false
  | a :: as, b :: bs => a == b && startsWithL as bs

/-- Python's `needle in hay` substring test. -/
def containsSub (needle : List Char) : List Char → Bool
  | [] => needle.isEmpty
  | c :: t => startsWithL needle (c :: t) || containsSub needle t

/-- The `methods_keywords` list of `extract_key_content`. -/
def methodsKeywords : List (List Char) :=
  ["methods".toList, "method".toList, "experimental procedures".toList,
   "experimental procedure".toList, "materials and methods".toList,
   "materials & methods".toList, "procedures".toList]

/-- The `key_section_keys` list of `extract_key_content`, in match order. -/
def keySectionKeys : List (List Char) :=
  ["introduction".toList, "main".toList, "methods".toList, "results".toList,
   "discussion".toList, "conclusion".toList]

/-- Index written last by a `for idx, section in enumerate(...)` loop that
assigns on every section satisfying `p`. -/
def lastIdxSat (p : PaperSection → Bool) (secs : List PaperSection) : Option Nat :=
  secs.enum.foldl (fun acc x => if p x.2 then some x.1 else acc) none

/-- Detection of a `Main` heading: contains `main` and is shorter than 20
characters. -/
def isMainTitle (t : List Char) : Bool :=
  containsSub "main".toList (lowerStr t) && decide (t.length < 20)

/-- Detection of a `Discussion` heading. -/
def isDiscussionTitle (t : List Char) : Bool :=
  containsSub "discussion".toList (lowerStr t)

/-- The `main_idx` computed by `extract_key_content` (last match wins). -/
def mainIdx (secs : List PaperSection) : Option Nat :=
  lastIdxSat (fun s => isMainTitle s.sectionTitle) secs

/-- The `discussion_idx` computed by `extract_key_content` (last match wins). -/
def discussionIdx (secs : List PaperSection) : Option Nat :=
  lastIdxSat (fun s => isDiscussionTitle s.sectionTitle) secs

/-- Whether index `idx` lies in `nature_results_sections`: strictly between
`main_idx` and `discussion_idx` when both exist and enclose at least one
section. -/
def inNatureResults (secs : List PaperSection) (idx : Nat) : Bool :=
  match mainIdx secs, discussionIdx secs with
  | some m, some d => decide (m + 1 < d) && decide (m < idx) && decide (idx < d)
  | _, _ => false

/-- Whether a title matches the methods keyword set. -/
def titleMatchesMethods (t : List Char) : Bool :=
  methodsKeywords.any (fun kw => containsSub kw (lowerStr t))

/-- First canonical key whose name occurs in the lowered title. -/
def titleKeyMatch (t : List Char) : Option (List Char) :=
  keySectionKeys.findSome? (fun key => if containsSub key (lowerStr t) then some key else none)

/-- The `matched_key` of one section: the positional Results rule first, then
the methods keyword set, then the canonical key list. -/
def matchedKey (secs : List PaperSection) (idx : Nat) (sec : PaperSection) :
    Option (List Char) :=
  if inNatureResults secs idx then some ("results".toList)
  else if titleMatchesMethods sec.sectionTitle then some ("methods".toList)
  else titleKeyMatch sec.sectionTitle

/-- The stripped, non-empty paragraph texts of one section (`section_content`). -/
def sectionContent (sec : PaperSection) : List (List Char) :=
  (sec.sectionTexts.map (fun ti => pyStrip (textOf ti))).filter (fun t => !t.isEmpty)

/-- Python `"\n".join`. -/
def joinNL : List (List Char) → List Char
  | [] => []
  | [p] => p
  | p :: rest => p ++ '\n' :: joinNL rest

/-- The importance label attached to each canonical key. -/
def labelFor (key : List Char) : List Char :=
  if key = "introduction".toList ∨ key = "main".toList then
    "[IMPORTANT FOR PROBLEM ANALYSIS]".toList
  else if key = "methods".toList then "[IMPORTANT FOR DATA & METHODS]".toList
  else if key = "results".toList then "[IMPORTANT FOR CONCLUSION - FINDINGS]".toList
  else if key = "discussion".toList then "[IMPORTANT FOR CONCLUSION - SIGNIFICANCE]".toList
  else []

/-- A labelled section block: `\n## title label:\n` followed by the joined
content. -/
def labeledEntry (title key : List Char) (content : List (List Char)) : List Char :=
  '\n' :: ("## ".toList ++ title ++ ' ' :: (labelFor key ++ ":\n".toList ++ joinNL content))

/-- The unlabelled block appended when a further Results section is merged. -/
def resultsAppendEntry (title : List Char) (content : List (List Char)) : List Char :=
  '\n' :: ("## ".toList ++ title ++ (":\n".toList ++ joinNL content))

/-- The `sections_dict` of `extract_key_content`, one slot per canonical key. -/
structure SectionsDict where
  introEntry : Option (List Char)
  mainEntry : Option (List Char)
  methodsEntry : Option (List Char)
  resultsEntry : Option (List Char)
  discussionEntry : Option (List Char)
  conclusionEntry : Option (List Char)
deriving DecidableEq

/-- The empty `sections_dict`. -/
def emptyDict : SectionsDict := ⟨none, none, none, none, none, none⟩

/-- Plain assignment `sections_dict[key] = v`. -/
def dictSet (d : SectionsDict) (key : List Char) (v : List Char) : SectionsDict :=
  if key = "introduction".toList then { d with introEntry := some v }
  else if key = "main".toList then { d with mainEntry := some v }
  else if key = "methods".toList then { d with methodsEntry := some v }
  else if key = "results".toList then { d with resultsEntry := some v }
  else if key = "discussion".toList then { d with discussionEntry := some v }
  else if key = "conclusion".toList then { d with conclusionEntry := some v }
  else d

/-- Processing of one enumerated section: classify, collect stripped
paragraphs, then write the labelled entry — overwriting for every key except
`results`, which appends to an existing entry. -/
def updateDict (secs : List PaperSection) (d : SectionsDict) (idx : Nat)
    (sec : PaperSection) : SectionsDict :=
  match matchedKey secs idx sec with
  | none => d
  | some key =>
    let content := sectionContent sec
    if content.isEmpty then d
    else
      if key = "results".toList then
        match d.resultsEntry with
        | some existing =>
          let merged := existing ++ '\n' :: resultsAppendEntry sec.sectionTitle content
          { d with resultsEntry := some merged }
        | none => dictSet d key (labeledEntry sec.sectionTitle key content)
      else dictSet d key (labeledEntry sec.sectionTitle key content)

/-- Folding the section loop over an explicit list of indexed sections. -/
def buildDictAux (secs : List PaperSection) (pairs : List (Nat × PaperSection))
    (d : SectionsDict) : SectionsDict :=
  pairs.foldl (fun d p => updateDict secs d p.1 p.2) d

/-- The `sections_dict` produced by the research-mode section loop. -/
def buildDict (secs : List PaperSection) : SectionsDict :=
  buildDictAux secs secs.enum emptyDict

/-- One media record as read by the selector (absent fields as empty). -/
structure MediaItem where
  mtype : List Char
  caption : List Char
  legend : List Char
  mname : List Char
deriving DecidableEq

/-- The caption line built for one media item, when any field is present. -/
def mediaCaption (m : MediaItem) : Option (List Char) :=
  if m.caption.isEmpty && m.legend.isEmpty && m.mname.isEmpty then none
  else
    some (pyStrip (upperStr (lowerStr m.mtype) ++ ": ".toList ++
      (if m.mname.isEmpty then [] else m.mname ++ ". ".toList) ++ m.caption ++
      (if m.legend.isEmpty then [] else " [Legend: ".toList ++ m.legend ++ "]".toList)))

/-- The figures/tables block of research mode (empty when no captions). -/
def figuresContent (media : List MediaItem) : List Char :=
  let caps := media.filterMap mediaCaption
  if caps.isEmpty then []
  else '\n' :: ("## Figures and Tables [IMPORTANT FOR DATA & METHODS]:\n".toList ++ joinNL caps)

/-- The final assembly order: Introduction/Main, Methods, Figures, Results,
Discussion; absent blocks omitted. -/
def assembleParts (d : SectionsDict) (figs : List Char) : List (List Char) :=
  (match d.introEntry with
   | some x => [x]
   | none =>
     match d.mainEntry with
     | some x => [x]
     | none => []) ++
  (match d.methodsEntry with
   | some x => [x]
   | none => []) ++
  (if figs.isEmpty then [] else [figs]) ++
  (match d.resultsEntry with
   | some x => [x]
   | none => []) ++
  (match d.discussionEntry with
   | some x => [x]
   | none => [])

/-- The section-title keywords excluded in review mode. -/
def excludeKeywords : List (List Char) :=
  ["references".toList, "reference".toList, "rights and permissions".toList,
   "rights & permissions".toList, "author information".toList,
   "author contributions".toList, "authors".toList, "acknowledgments".toList,
   "acknowledgement".toList, "supplementary".toList, "supplemental".toList,
   "data availability".toList, "code availability".toList,
   "competing interests".toList, "conflict of interest".toList, "ethics".toList,
   "ethical".toList, "peer review".toList, "reviewer".toList, "publisher".toList,
   "copyright".toList, "about this article".toList, "about the article".toList,
   "article history".toList, "publication history".toList]

/-- Whether a review-mode section is excluded by the denylist. -/
def isExcludedTitle (t : List Char) : Bool :=
  excludeKeywords.any (fun kw => containsSub kw (lowerStr t))

/-- The review-mode figures block (no importance label). -/
def figuresContentReview (media : List MediaItem) : List Char :=
  let caps := media.filterMap mediaCaption
  if caps.isEmpty then []
  else '\n' :: ("## Figures and Tables:\n".toList ++ joinNL caps)

/-- Review mode: every non-denylisted section with content, verbatim and in
order, then the figures block. -/
def extractKeyContentReview (secs : List PaperSection) (media : List MediaItem) :
    List Char :=
  let parts := secs.filterMap (fun sec =>
    if isExcludedTitle sec.sectionTitle then none
    else
      let content := sectionContent sec
      if content.isEmpty then none
      else some ('\n' :: ("## ".toList ++ sec.sectionTitle ++ (":\n".toList ++ joinNL content))))
  let figs := figuresContentReview media
  joinNL (parts ++ (if figs.isEmpty then [] else [figs]))

/-- Embedding of `DirectReasoningExtractor.extract_key_content`. -/
def extractKeyContent (secs : List PaperSection) (media : List MediaItem)
    (isReview : Bool) : List Char :=
  if isReview then extractKeyContentReview secs media
  else joinNL (assembleParts (buildDict secs) (figuresContent media))

/-! ## Inclusion properties of the selector -/

theorem infix_append_left {x y : List Char} (z : List Char) (h : x <:+: y) :
    x <:+: z ++ y := by
  obtain ⟨s, t, rfl⟩ := h
  exact ⟨z ++ s, t, by simp⟩

theorem infix_append_right {x y : List Char} (z : List Char) (h : x <:+: y) :
    x <:+: y ++ z := by
  obtain ⟨s, t, rfl⟩ := h
  exact ⟨s, t ++ z, by simp⟩

theorem joinNL_mem_infix {x : List Char} : {parts : List (List Char)} → x ∈ parts →
    x <:+: joinNL parts
  | [], h => absurd h (by simp)
  | [p], h => by
    simp at h
    subst h
    exact List.infix_refl _
  | p :: q :: rest, h => by
    rcases List.mem_cons.mp h with rfl | h2
    · exact infix_append_right _ (List.infix_refl _)
    · have h3 := joinNL_mem_infix h2
      rw [show joinNL (p :: q :: rest) = p ++ '\n' :: joinNL (q :: rest) from rfl]
      exact infix_append_left p (infix_append_left ['\n'] h3)

theorem joinNL_suffix_labeledEntry (title key : List Char) (content : List (List Char)) :
    joinNL content <:+: labeledEntry title key content := by
  refine ⟨'\n' :: ("## ".toList ++ title ++ ' ' :: (labelFor key ++ ":\n".toList)), [], ?_⟩
  simp [labeledEntry]

theorem joinNL_suffix_resultsAppendEntry (title : List Char) (content : List (List Char)) :
    joinNL content <:+: resultsAppendEntry title content := by
  refine ⟨'\n' :: ("## ".toList ++ title ++ ":\n".toList), [], ?_⟩
  simp [resultsAppendEntry]

theorem dictSet_methods (d : SectionsDict) (v : List Char) :
    dictSet d ("methods".toList) v = { d with methodsEntry := some v } := by
  unfold dictSet
  rw [if_neg (by decide), if_neg (by decide), if_pos rfl]

theorem dictSet_discussion (d : SectionsDict) (v : List Char) :
    dictSet d ("discussion".toList) v = { d with discussionEntry := some v } := by
  unfold dictSet
  rw [if_neg (by decide), if_neg (by decide), if_neg (by decide), if_neg (by decide),
    if_pos rfl]

theorem dictSet_results (d : SectionsDict) (v : List Char) :
    dictSet d ("results".toList) v = { d with resultsEntry := some v } := by
  unfold dictSet
  rw [if_neg (by decide), if_neg (by decide), if_neg (by decide), if_pos rfl]

theorem dictSet_preserves_results {key : List Char} (h : key ≠ "results".toList)
    (d : SectionsDict) (v : List Char) : (dictSet d key v).resultsEntry = d.resultsEntry := by
  unfold dictSet
  split_ifs <;> simp_all

theorem dictSet_preserves_methods {key : List Char} (h : key ≠ "methods".toList)
    (d : SectionsDict) (v : List Char) : (dictSet d key v).methodsEntry = d.methodsEntry := by
  unfold dictSet
  split_ifs <;> simp_all

theorem dictSet_preserves_discussion {key : List Char} (h : key ≠ "discussion".toList)
    (d : SectionsDict) (v : List Char) :
    (dictSet d key v).discussionEntry = d.discussionEntry := by
  unfold dictSet
  split_ifs <;> simp_all

theorem updateDict_results_monotone (secs : List PaperSection) (d : SectionsDict)
    (i : Nat) (s : PaperSection) {v : List Char} (hv : d.resultsEntry = some v) :
    ∃ v', (updateDict secs d i s).resultsEntry = some v' ∧ v <+: v' := by
  unfold updateDict
  cases hmk : matchedKey secs i s with
  | none => exact ⟨v, hv, List.prefix_refl v⟩
  | some key =>
    by_cases hemp : (sectionContent s).isEmpty
    · simp only [hemp, if_true]
      exact ⟨v, hv, List.prefix_refl v⟩
    · simp only [hemp, Bool.false_eq_true, if_false]
      by_cases hres : key = "results".toList
      · simp only [hres, if_pos rfl, hv]
        exact ⟨_, rfl, ⟨_, rfl⟩⟩
      · simp only [if_neg hres]
        exact ⟨v, (dictSet_preserves_results hres d _).trans hv, List.prefix_refl v⟩

theorem buildDictAux_append (secs : List PaperSection)
    (ps qs : List (Nat × PaperSection)) (d : SectionsDict) :
    buildDictAux secs (ps ++ qs) d = buildDictAux secs qs (buildDictAux secs ps d) := by
  simp [buildDictAux, List.foldl_append]

theorem buildDictAux_results_infix (secs : List PaperSection) :
    ∀ (pairs : List (Nat × PaperSection)) (d : SectionsDict) {idx : Nat}
    {sec : PaperSection}, (idx, sec) ∈ pairs →
    matchedKey secs idx sec = some ("results".toList) → sectionContent sec ≠ [] →
    ∃ v, (buildDictAux secs pairs d).resultsEntry = some v ∧
      joinNL (sectionContent sec) <:+: v := by
  intro pairs
  induction pairs using List.reverseRecOn with
  | nil =>
    intro d idx sec hmem
    simp at hmem
  | append_singleton ps q ih =>
    intro d idx sec hmem hkey hne
    rw [buildDictAux_append]
    rcases List.mem_append.mp hmem with hps | hq
    · obtain ⟨v, hv, hinf⟩ := ih d hps hkey hne
      obtain ⟨v', hv', hpre⟩ :=
        updateDict_results_monotone secs (buildDictAux secs ps d) q.1 q.2 hv
      rw [show buildDictAux secs [q] (buildDictAux secs ps d) =
        updateDict secs (buildDictAux secs ps d) q.1 q.2 from rfl]
      exact ⟨v', hv', hinf.trans hpre.isInfix⟩
    · obtain rfl : (idx, sec) = q := by simpa using hq
      rw [show buildDictAux secs [(idx, sec)] (buildDictAux secs ps d) =
        updateDict secs (buildDictAux secs ps d) idx sec from rfl]
      unfold updateDict
      rw [hkey]
      have hemp : (sectionContent sec).isEmpty = false := by
        cases h : sectionContent sec with
        | nil => exact absurd h hne
        | cons a b => rfl
      simp only [hemp, Bool.false_eq_true, if_false, if_pos rfl]
      cases hre : (buildDictAux secs ps d).resultsEntry with
      | some existing =>
        refine ⟨_, rfl, ?_⟩
        exact infix_append_left _ (infix_append_left ['\n']
          (joinNL_suffix_resultsAppendEntry sec.sectionTitle (sectionContent sec)))
      | none =>
        rw [dictSet_results]
        exact ⟨_, rfl,
          joinNL_suffix_labeledEntry sec.sectionTitle _ (sectionContent sec)⟩

theorem updateDict_methods_preserve (secs : List PaperSection) (d : SectionsDict)
    (i : Nat) (s : PaperSection)
    (h : matchedKey secs i s = some ("methods".toList) → sectionContent s = []) :
    (updateDict secs d i s).methodsEntry = d.methodsEntry := by
  unfold updateDict
  cases hmk : matchedKey secs i s with
  | none => rfl
  | some key =>
    by_cases hemp : (sectionContent s).isEmpty
    · simp [hemp]
    · simp only [hemp, Bool.false_eq_true, if_false]
      have hkm : key ≠ "methods".toList := by
        intro hk
        subst hk
        have := h hmk
        rw [this] at hemp
        exact hemp rfl
      by_cases hres : key = "results".toList
      · subst hres
        rw [if_pos rfl]
        cases d.resultsEntry with
        | some e => rfl
        | none =>
          rw [dictSet_results]
      · simp only [if_neg hres]
        exact dictSet_preserves_methods hkm d _

theorem updateDict_discussion_preserve (secs : List PaperSection) (d : SectionsDict)
    (i : Nat) (s : PaperSection)
    (h : matchedKey secs i s = some ("discussion".toList) → sectionContent s = []) :
    (updateDict secs d i s).discussionEntry = d.discussionEntry := by
  unfold updateDict
  cases hmk : matchedKey secs i s with
  | none => rfl
  | some key =>
    by_cases hemp : (sectionContent s).isEmpty
    · simp [hemp]
    · simp only [hemp, Bool.false_eq_true, if_false]
      have hkm : key ≠ "discussion".toList := by
        intro hk
        subst hk
        have := h hmk
        rw [this] at hemp
        exact hemp rfl
      by_cases hres : key = "results".toList
      · subst hres
        rw [if_pos rfl]
        cases d.resultsEntry with
        | some e => rfl
        | none =>
          rw [dictSet_results]
      · simp only [if_neg hres]
        exact dictSet_preserves_discussion hkm d _

theorem buildDictAux_methods_last (secs : List PaperSection)
    (ps : List (Nat × PaperSection)) {idx : Nat} {sec : PaperSection}
    (qs : List (Nat × PaperSection)) (d : SectionsDict)
    (hkey : matchedKey secs idx sec = some ("methods".toList))
    (hne : sectionContent sec ≠ [])
    (hafter : ∀ p ∈ qs, matchedKey secs p.1 p.2 = some ("methods".toList) →
      sectionContent p.2 = []) :
    (buildDictAux secs (ps ++ (idx, sec) :: qs) d).methodsEntry =
      some (labeledEntry sec.sectionTitle ("methods".toList) (sectionContent sec)) := by
  rw [show ps ++ (idx, sec) :: qs = (ps ++ [(idx, sec)]) ++ qs by simp]
  rw [buildDictAux_append, buildDictAux_append]
  set d1 := buildDictAux secs ps d
  have hset : (buildDictAux secs [(idx, sec)] d1).methodsEntry =
      some (labeledEntry sec.sectionTitle ("methods".toList) (sectionContent sec)) := by
    rw [show buildDictAux secs [(idx, sec)] d1 = updateDict secs d1 idx sec from rfl]
    unfold updateDict
    rw [hkey]
    have hemp : (sectionContent sec).isEmpty = false := by
      cases h : sectionContent sec with
      | nil => exact absurd h hne
      | cons a b => rfl
    simp only [hemp, Bool.false_eq_true, if_false, if_neg (by decide :
      ¬("methods".toList = "results".toList))]
    rw [dictSet_methods]
  clear_value d1
  set d2 := buildDictAux secs [(idx, sec)] d1
  clear_value d2
  induction qs generalizing d2 with
  | nil => exact hset
  | cons q qs ih =>
    rw [show buildDictAux secs (q :: qs) d2 =
      buildDictAux secs qs (updateDict secs d2 q.1 q.2) from rfl]
    refine ih (fun p hp => hafter p (by simp [hp])) _ ?_
    rw [updateDict_methods_preserve secs d2 q.1 q.2 (hafter q (by simp))]
    exact hset

theorem buildDictAux_discussion_last (secs : List PaperSection)
    (ps : List (Nat × PaperSection)) {idx : Nat} {sec : PaperSection}
    (qs : List (Nat × PaperSection)) (d : SectionsDict)
    (hkey : matchedKey secs idx sec = some ("discussion".toList))
    (hne : sectionContent sec ≠ [])
    (hafter : ∀ p ∈ qs, matchedKey secs p.1 p.2 = some ("discussion".toList) →
      sectionContent p.2 = []) :
    (buildDictAux secs (ps ++ (idx, sec) :: qs) d).discussionEntry =
      some (labeledEntry sec.sectionTitle ("discussion".toList) (sectionContent sec)) := by
  rw [show ps ++ (idx, sec) :: qs = (ps ++ [(idx, sec)]) ++ qs by simp]
  rw [buildDictAux_append, buildDictAux_append]
  set d1 := buildDictAux secs ps d
  have hset : (buildDictAux secs [(idx, sec)] d1).discussionEntry =
      some (labeledEntry sec.sectionTitle ("discussion".toList) (sectionContent sec)) := by
    rw [show buildDictAux secs [(idx, sec)] d1 = updateDict secs d1 idx sec from rfl]
    unfold updateDict
    rw [hkey]
    have hemp : (sectionContent sec).isEmpty = false := by
      cases h : sectionContent sec with
      | nil => exact absurd h hne
      | cons a b => rfl
    simp only [hemp, Bool.false_eq_true, if_false, if_neg (by decide :
      ¬("discussion".toList = "results".toList))]
    rw [dictSet_discussion]
  clear_value d1
  set d2 := buildDictAux secs [(idx, sec)] d1
  clear_value d2
  induction qs generalizing d2 with
  | nil => exact hset
  | cons q qs ih =>
    rw [show buildDictAux secs (q :: qs) d2 =
      buildDictAux secs qs (updateDict secs d2 q.1 q.2) from rfl]
    refine ih (fun p hp => hafter p (by simp [hp])) _ ?_
    rw [updateDict_discussion_preserve secs d2 q.1 q.2 (hafter q (by simp))]
    exact hset

theorem resultsEntry_infix_output {secs : List PaperSection} {media : List MediaItem}
    {v : List Char} (hv : (buildDict secs).resultsEntry = some v) :
    v <:+: extractKeyContent secs media false := by
  unfold extractKeyContent
  rw [if_neg (by simp)]
  refine joinNL_mem_infix ?_
  unfold assembleParts
  rw [hv]
  simp

theorem methodsEntry_infix_output {secs : List PaperSection} {media : List MediaItem}
    {v : List Char} (hv : (buildDict secs).methodsEntry = some v) :
    v <:+: extractKeyContent secs media false := by
  unfold extractKeyContent
  rw [if_neg (by simp)]
  refine joinNL_mem_infix ?_
  unfold assembleParts
  rw [hv]
  simp

theorem discussionEntry_infix_output {secs : List PaperSection} {media : List MediaItem}
    {v : List Char} (hv : (buildDict secs).discussionEntry = some v) :
    v <:+: extractKeyContent secs media false := by
  unfold extractKeyContent
  rw [if_neg (by simp)]
  refine joinNL_mem_infix ?_
  unfold assembleParts
  rw [hv]
  simp

/-- Full inclusion of the text of a methods section placed as described in the
surrounding enumeration; shared by the C3 theorems. -/
theorem methods_full_inclusion (secs : List PaperSection) (media : List MediaItem)
    (ps qs : List (Nat × PaperSection)) (idx : Nat) (sec : PaperSection)
    (hsplit : secs.enum = ps ++ (idx, sec) :: qs)
    (hkey : matchedKey secs idx sec = some ("methods".toList))
    (hafter : ∀ p ∈ qs, matchedKey secs p.1 p.2 = some ("methods".toList) →
      sectionContent p.2 = []) :
    joinNL (sectionContent sec) <:+: extractKeyContent secs media false := by
  by_cases hne : sectionContent sec = []
  · rw [hne]
    exact List.nil_infix
  · have h1 := buildDictAux_methods_last secs ps qs emptyDict hkey hne hafter
    rw [← hsplit] at h1
    exact (joinNL_suffix_labeledEntry sec.sectionTitle _ _).trans
      (methodsEntry_infix_output h1)

/-- Full inclusion of a discussion section that is the last one with content. -/
theorem discussion_full_inclusion (secs : List PaperSection) (media : List MediaItem)
    (ps qs : List (Nat × PaperSection)) (idx : Nat) (sec : PaperSection)
    (hsplit : secs.enum = ps ++ (idx, sec) :: qs)
    (hkey : matchedKey secs idx sec = some ("discussion".toList))
    (hafter : ∀ p ∈ qs, matchedKey secs p.1 p.2 = some ("discussion".toList) →
      sectionContent p.2 = []) :
    joinNL (sectionContent sec) <:+: extractKeyContent secs media false := by
  by_cases hne : sectionContent sec = []
  · rw [hne]
    exact List.nil_infix
  · have h1 := buildDictAux_discussion_last secs ps qs emptyDict hkey hne hafter
    rw [← hsplit] at h1
    exact (joinNL_suffix_labeledEntry sec.sectionTitle _ _).trans
      (discussionEntry_infix_output h1)

/-- Full inclusion of every results-classified section (merged entries). -/
theorem results_full_inclusion (secs : List PaperSection) (media : List MediaItem)
    (idx : Nat) (sec : PaperSection) (hmem : (idx, sec) ∈ secs.enum)
    (hkey : matchedKey secs idx sec = some ("results".toList)) :
    joinNL (sectionContent sec) <:+: extractKeyContent secs media false := by
  by_cases hne : sectionContent sec = []
  · rw [hne]
    exact List.nil_infix
  · obtain ⟨v, hv, hinf⟩ := buildDictAux_results_infix secs secs.enum emptyDict hmem hkey hne
    exact hinf.trans (resultsEntry_infix_output hv)

theorem joinNL_cons_cons (p q : List Char) (rest : List (List Char)) :
    joinNL (p :: q :: rest) = p ++ '\n' :: joinNL (q :: rest) := rfl

theorem joinNL_replicate_length (n : Nat) :
    (joinNL (List.replicate (n + 1) ['a'])).length = 2 * n + 1 := by
  induction n with
  | zero => rfl
  | succ n ih =>
    have h1 : List.replicate (n + 2) ['a'] = ['a'] :: List.replicate (n + 1) ['a'] := rfl
    have h2 : List.replicate (n + 1) ['a'] = ['a'] :: List.replicate n ['a'] := rfl
    rw [h1, h2, joinNL_cons_cons, ← h2]
    simp only [List.length_append, List.length_cons, List.length_nil, ih]
    omega

/-! ## C3 and C4: section classification and forced inclusion -/

/-- The methods-section quota of the specification's example configuration. -/
def quotaMethodsSpec : Nat := 10000

/-- A methods section holding 10001 one-character paragraphs. -/
def c3MethodsSec : PaperSection :=
  ⟨"Methods".toList, List.replicate 10001 (TextItem.plain ['a'])⟩

theorem c3_section_content :
    sectionContent c3MethodsSec = List.replicate 10001 ['a'] := by
  unfold sectionContent c3MethodsSec
  rw [List.map_replicate]
  rw [show pyStrip (textOf (TextItem.plain ['a'])) = ['a'] from rfl]
  rw [List.filter_replicate]
  rw [if_pos (by decide)]

/-- C3, counterexample: the claim bounds the methods excerpt by its configured
quota (10000 characters in the specification's example table, modulo one
paragraph boundary).  The code applies no quota at all: a methods section of
10001 one-character paragraphs (20001 characters once joined) is included in
the excerpt in full, exceeding the quota even with a whole extra paragraph of
slack. -/
theorem c3_counterexample :
    quotaMethodsSpec + 1 < (joinNL (sectionContent c3MethodsSec)).length ∧
    joinNL (sectionContent c3MethodsSec) <:+: extractKeyContent [c3MethodsSec] [] false := by
  constructor
  · rw [c3_section_content, show (10001 : Nat) = 10000 + 1 from rfl,
      joinNL_replicate_length]
    decide
  · refine methods_full_inclusion [c3MethodsSec] [] [] [] 0 c3MethodsSec rfl ?_ ?_
    · decide
    · intro p hp
      simp at hp

/-- C3, amended: `extract_key_content` applies no quota to any section.  Every
results-classified section's full stripped text is an infix of the excerpt
(multiple results sections are merged); the last discussion-classified section
with content and the last methods-classified section with content are likewise
included in full, so no configured quota bounds their size. -/
theorem c3_no_quota_full_inclusion (secs : List PaperSection) (media : List MediaItem) :
    (∀ idx sec, (idx, sec) ∈ secs.enum →
      matchedKey secs idx sec = some ("results".toList) →
      joinNL (sectionContent sec) <:+: extractKeyContent secs media false) ∧
    (∀ ps qs idx sec, secs.enum = ps ++ (idx, sec) :: qs →
      matchedKey secs idx sec = some ("discussion".toList) →
      (∀ p ∈ qs, matchedKey secs p.1 p.2 = some ("discussion".toList) →
        sectionContent p.2 = []) →
      joinNL (sectionContent sec) <:+: extractKeyContent secs media false) ∧
    (∀ ps qs idx sec, secs.enum = ps ++ (idx, sec) :: qs →
      matchedKey secs idx sec = some ("methods".toList) →
      (∀ p ∈ qs, matchedKey secs p.1 p.2 = some ("methods".toList) →
        sectionContent p.2 = []) →
      joinNL (sectionContent sec) <:+: extractKeyContent secs media false) := by
  refine ⟨?_, ?_, ?_⟩
  · intro idx sec hmem hkey
    exact results_full_inclusion secs media idx sec hmem hkey
  · intro ps qs idx sec hsplit hkey hafter
    exact discussion_full_inclusion secs media ps qs idx sec hsplit hkey hafter
  · intro ps qs idx sec hsplit hkey hafter
    exact methods_full_inclusion secs media ps qs idx sec hsplit hkey hafter

/-- Four-section demo paper used by the C3 witness. -/
def c3WitnessSecs : List PaperSection :=
  [⟨"Introduction".toList, [TextItem.plain "ii".toList]⟩,
   ⟨"Methods".toList, [TextItem.plain "mm".toList]⟩,
   ⟨"Results".toList, [TextItem.plain "rr".toList]⟩,
   ⟨"Discussion".toList, [TextItem.plain "dd".toList]⟩]

/-- C3, witness: on the demo paper, both the results text and the methods text
appear in full in the excerpt. -/
theorem c3_no_quota_full_inclusion_witness :
    joinNL (sectionContent ⟨"Results".toList, [TextItem.plain "rr".toList]⟩) <:+:
      extractKeyContent c3WitnessSecs [] false ∧
    joinNL (sectionContent ⟨"Methods".toList, [TextItem.plain "mm".toList]⟩) <:+:
      extractKeyContent c3WitnessSecs [] false := by
  have h := c3_no_quota_full_inclusion c3WitnessSecs []
  constructor
  · exact h.1 2 _ (by decide) (by decide)
  · refine h.2.2 [(0, ⟨"Introduction".toList, [TextItem.plain "ii".toList]⟩)]
      [(2, ⟨"Results".toList, [TextItem.plain "rr".toList]⟩),
       (3, ⟨"Discussion".toList, [TextItem.plain "dd".toList]⟩)] 1 _ (by decide) (by decide) ?_
    intro p hp hk
    simp at hp
    rcases hp with rfl | rfl <;> revert hk <;> decide

/-- Paper with a Methods section strictly between Main and Discussion. -/
def c4Secs : List PaperSection :=
  [⟨"Main".toList, [TextItem.plain "aa".toList]⟩,
   ⟨"Methods".toList, [TextItem.plain "mm".toList]⟩,
   ⟨"Discussion".toList, [TextItem.plain "dd".toList]⟩]

/-- C4, counterexample: the claim exempts explicitly Methods-labeled sections
from the positional Results rule.  In the code the positional rule is checked
first, so the section titled `Methods` sitting between `Main` and `Discussion`
is classified as results even though its title matches the methods keyword
set. -/
theorem c4_counterexample :
    titleMatchesMethods ("Methods".toList) = true ∧
    matchedKey c4Secs 1 ⟨"Methods".toList, [TextItem.plain "mm".toList]⟩ =
      some ("results".toList) :=
  ⟨by decide, by decide⟩

/-- C4, amended: when the section list has a Main heading (short title
containing `main`, last occurrence) at index `m` and a later Discussion
heading at index `d` with at least one section between them, every section
strictly between them — including ones explicitly labeled Methods — is
classified as the de facto Results section; no index outside that open
interval is positionally classified; and each such section's full text is
merged into the excerpt. -/
theorem c4_between_main_discussion (secs : List PaperSection) (m d : Nat)
    (hm : mainIdx secs = some m) (hd : discussionIdx secs = some d)
    (hgap : m + 1 < d) :
    (∀ idx sec, m < idx → idx < d → matchedKey secs idx sec = some ("results".toList)) ∧
    (∀ idx, ¬(m < idx ∧ idx < d) → inNatureResults secs idx = false) ∧
    (∀ media idx sec, m < idx → idx < d → (idx, sec) ∈ secs.enum →
      joinNL (sectionContent sec) <:+: extractKeyContent secs media false) := by
  have hnat : ∀ idx, m < idx → idx < d → inNatureResults secs idx = true := by
    intro idx h1 h2
    unfold inNatureResults
    rw [hm, hd]
    simp [hgap, h1, h2]
  have hpart1 : ∀ idx sec, m < idx → idx < d →
      matchedKey secs idx sec = some ("results".toList) := by
    intro idx sec h1 h2
    unfold matchedKey
    rw [hnat idx h1 h2]
    simp
  refine ⟨hpart1, ?_, ?_⟩
  · intro idx hcon
    unfold inNatureResults
    rw [hm, hd]
    simp
    omega
  · intro media idx sec h1 h2 hmem
    exact results_full_inclusion secs media idx sec hmem (hpart1 idx sec h1 h2)

/-- C4, witness: on the concrete paper `c4Secs` (Main, Methods, Discussion)
the middle Methods section is positionally classified as results, index 0 is
not, and its text lands in the excerpt. -/
theorem c4_between_main_discussion_witness :
    matchedKey c4Secs 1 ⟨"Methods".toList, [TextItem.plain "mm".toList]⟩ =
      some ("results".toList) ∧
    inNatureResults c4Secs 0 = false ∧
    joinNL (sectionContent ⟨"Methods".toList, [TextItem.plain "mm".toList]⟩) <:+:
      extractKeyContent c4Secs [] false := by
  have h := c4_between_main_discussion c4Secs 0 2 (by decide) (by decide) (by decide)
  exact ⟨h.1 1 _ (by decide) (by decide), h.2.1 0 (by omega),
    h.2.2 [] 1 _ (by decide) (by decide) (by decide)⟩

/-! ## Python dict / truthiness helpers

The database builders and the extraction pipeline manipulate parsed JSON
records as Python dicts.  A dict is modelled as an association list
`List (List Char × Json)` (for records built in Python) or looked up inside a
parsed `Json.obj` (for records coming from `json.loads`). -/

/-- Lookup in a parsed object's field sequence (`dict[...]` / `in` on a dict
built by `json.loads`; keys are unique there, so first match suffices). -/
def fieldsLookup : JsonFields → List Char → Option Json
  | .nil, _ => none
  | .cons k v tl, key => if k = key then some v else fieldsLookup tl key

/-- Lookup in an association-list dict. -/
def jLookup : List (List Char × Json) → List Char → Option Json
  | [], _ => none
  | (k, v) :: tl, key => if k = key then some v else jLookup tl key

/-- Python `d.get(key, default)` on an association-list dict. -/
def pyGetD (d : List (List Char × Json)) (key : List Char) (dflt : Json) : Json :=
  (jLookup d key).getD dflt

/-- Python `d.get(key, default)` on a parsed JSON value; a non-dict value has
no `.get`, the default stands in for the (unreachable) error case. -/
def jGetD (p : Json) (key : List Char) (dflt : Json) : Json :=
  match p with
  | .obj fs => (fieldsLookup fs key).getD dflt
  | _ => dflt

/-- `key in chain` / presence test on a parsed object. -/
def hasKeyF (fs : JsonFields) (k : List Char) : Bool := (fieldsLookup fs k).isSome

/-- `chain[key]` on a parsed object, guarded by a presence check at every use
site (the `null` default is never hit there). -/
def getF (fs : JsonFields) (k : List Char) : Json := (fieldsLookup fs k).getD Json.null

/-- Python truthiness of a JSON value (`bool(x)` / `if x:`): `None`, `False`,
`0`, `""`, `[]` and `{}` are falsy, everything else truthy. -/
def truthy : Json → Bool
  | .null => false
  | .bool b => b
  | .num n => decide (n ≠ 0)
  | .str s => decide (s ≠ [])
  | .arr .nil => false
  | .arr (.cons _ _) => true
  | .obj .nil => false
  | .obj (.cons _ _ _) => true

/-- Python `a or b`. -/
def pyOr (a b : Json) : Json := if truthy a then a else b

/-- Interpolation of a JSON value into an f-string.  Faithful for string
values (the only values the modelled records interpolate); other values get a
canonical display form. -/
def jStr : Json → List Char
  | .str s => s
  | j => serialize j

/-- All-decimal-digit test. -/
def allDigits (s : List Char) : Bool := s.all (fun c => c.isDigit)

/-- Python `int(s)` on a string: strip whitespace, optional sign, decimal
digits; anything else raises `ValueError` (modelled as `none`). -/
def pyIntOfStr (s : List Char) : Option Int :=
  match pyStrip s with
  | [] => none
  | c :: r =>
    if c = '-' then
      if allDigits r && !r.isEmpty then some (-(digitsToNat r : Int)) else none
    else if c = '+' then
      if allDigits r && !r.isEmpty then some ((digitsToNat r : Int)) else none
    else if allDigits (c :: r) then some ((digitsToNat (c :: r) : Int)) else none

/-- Python `int(x)`: identity on integers, `True`/`False` to one/zero, digit
strings parsed, everything else (`None`, lists, dicts) a `TypeError`
(modelled as `none`). -/
def pyInt : Json → Option Int
  | .num n => some n
  | .bool b => some (if b then 1 else 0)
  | .str s => pyIntOfStr s
  | _ => none

/-! ## `build_db.py` / `build_hybrid_reasoning_db.py`: `build_database`

Both builders walk the list of reasoning-chain records, skip records whose
four reasoning fields are not all truthy, embed an index text built from the
title and the problem decomposition only, skip records whose embedding call
returned `None`, and stage an entry (id, vector, document, metadata) for the
vector store.  The staged entries are flushed to `collection.add` in batches
of 50, which preserves their order, so the store receives exactly the staged
sequence: the model accumulates that sequence directly.  The embedder is an
external collaborator, abstracted as a function `List Char → Option E`. -/

/-- The four reasoning fields read at the top of the loop
(`chain.get(k, '')`). -/
def chainProblem (chain : List (List Char × Json)) : Json :=
  pyGetD chain "problem_decomposition".toList (Json.str [])

def chainData (chain : List (List Char × Json)) : Json :=
  pyGetD chain "data".toList (Json.str [])

def chainMethod (chain : List (List Char × Json)) : Json :=
  pyGetD chain "method".toList (Json.str [])

def chainConclusion (chain : List (List Char × Json)) : Json :=
  pyGetD chain "conclusion".toList (Json.str [])

/-- `all([problem, data, method, conclusion])`: the completeness check. -/
def chainComplete (chain : List (List Char × Json)) : Bool :=
  truthy (chainProblem chain) && truthy (chainData chain) &&
  truthy (chainMethod chain) && truthy (chainConclusion chain)

/-- The `reasoning_chain_dict` rebuilt from the four fields. -/
def reasoningChainFields (chain : List (List Char × Json)) : JsonFields :=
  .cons "problem_decomposition".toList (chainProblem chain)
  (.cons "data".toList (chainData chain)
  (.cons "method".toList (chainMethod chain)
  (.cons "conclusion".toList (chainConclusion chain) .nil)))

def reasoningChainObj (chain : List (List Char × Json)) : Json :=
  Json.obj (reasoningChainFields chain)

/-- `json.dumps(reasoning_chain_dict, ensure_ascii=False)`. -/
def reasoningChainStr (chain : List (List Char × Json)) : List Char :=
  serialize (reasoningChainObj chain)

/-- The f-string
`f"Research Title: \x7btitle\x7d\n\nProblem Decomposition:\n\x7bproblem\x7d"`:
the text handed to `embed_single`, built from the title and the problem
decomposition only. -/
def indexText (chain : List (List Char × Json)) : List Char :=
  "Research Title: ".toList ++
  jStr (pyGetD chain "title".toList (Json.str "Unknown Title".toList)) ++
  "\n\nProblem Decomposition:\n".toList ++ jStr (chainProblem chain)

/-- The metadata dict of `build_db.py` (lines 176-194): `or`-defaults for
doi/year/citation_count/journal, `int()` on year and citation_count (a
non-coercible value raises, modelled as `none`), `bool()` on is_open_access,
authors dumped to a JSON string. -/
def buildMetadataDb (chain : List (List Char × Json)) :
    Option (List (List Char × Json)) :=
  let doiV := pyOr (pyGetD chain "doi".toList Json.null) (Json.str [])
  let yearV := pyOr (pyGetD chain "year".toList Json.null) (Json.num 0)
  let citV := pyOr (pyGetD chain "citation_count".toList Json.null) (Json.num 0)
  let jourV := pyOr (pyGetD chain "journal".toList Json.null) (Json.str [])
  let openV := pyGetD chain "is_open_access".toList (Json.bool false)
  match pyInt yearV, pyInt citV with
  | some y, some c => some
      [("paper_id".toList, pyGetD chain "paper_id".toList (Json.str "unknown".toList)),
       ("title".toList, pyGetD chain "title".toList (Json.str "Unknown Title".toList)),
       ("doi".toList, doiV),
       ("year".toList, Json.num y),
       ("citation_count".toList, Json.num c),
       ("journal".toList, jourV),
       ("authors".toList, Json.str (serialize (pyGetD chain "authors".toList (Json.arr .nil)))),
       ("is_open_access".toList, Json.bool (truthy openV)),
       ("reasoning_chain".toList, Json.str (reasoningChainStr chain))]
  | _, _ => none

/-- The metadata dict of `build_hybrid_reasoning_db.py` (lines 147-157):
plain `chain.get(key, default)` — the default applies only when the key is
absent, an explicit `null` value passes through unchanged. -/
def buildMetadataHybrid (chain : List (List Char × Json)) :
    List (List Char × Json) :=
  [("paper_id".toList, pyGetD chain "paper_id".toList (Json.str "unknown".toList)),
   ("title".toList, pyGetD chain "title".toList (Json.str "Unknown Title".toList)),
   ("doi".toList, pyGetD chain "doi".toList (Json.str [])),
   ("year".toList, pyGetD chain "year".toList (Json.num 0)),
   ("citation_count".toList, pyGetD chain "citation_count".toList (Json.num 0)),
   ("journal".toList, pyGetD chain "journal".toList (Json.str [])),
   ("is_open_access".toList, pyGetD chain "is_open_access".toList (Json.bool false)),
   ("reasoning_chain".toList, Json.str (reasoningChainStr chain))]

/-- One staged entry for `collection.add`. -/
structure DbEntry (E : Type) where
  entryId : Json
  vec : E
  document : List Char
  metadata : List (List Char × Json)
deriving DecidableEq

/-- The body of one `build_db.py` loop iteration as a partial map: `none`
when the record is skipped (incomplete or embedding failure). -/
def processChain {E : Type} (embed : List Char → Option E)
    (chain : List (List Char × Json)) : Option (DbEntry E) :=
  if chainComplete chain then
    match embed (indexText chain) with
    | some v =>
      match buildMetadataDb chain with
      | some md =>
        some ⟨pyGetD chain "paper_id".toList (Json.str "unknown".toList), v,
              indexText chain, md⟩
      | none => none
    | none => none
  else none

/-- The `build_db.py` loop over `reasoning_chains` with the staged-entry and
`failed_count` accumulators; a record whose `int()` coercion raises aborts
the whole build (`none`). -/
def buildDbLoop {E : Type} (embed : List Char → Option E) :
    List (List (List Char × Json)) → List (DbEntry E) → Nat →
    Option (List (DbEntry E) × Nat)
  | [], acc, failed => some (acc, failed)
  | chain :: rest, acc, failed =>
    if chainComplete chain then
      match embed (indexText chain) with
      | some v =>
        match buildMetadataDb chain with
        | some md =>
          buildDbLoop embed rest
            (acc ++ [⟨pyGetD chain "paper_id".toList (Json.str "unknown".toList), v,
                      indexText chain, md⟩]) failed
        | none => none
      | none => buildDbLoop embed rest acc (failed + 1)
    else buildDbLoop embed rest acc (failed + 1)

/-- `HybridReasoningDBBuilder.build_database` of `build_db.py`. -/
def buildDatabase {E : Type} (embed : List Char → Option E)
    (chains : List (List (List Char × Json))) :
    Option (List (DbEntry E) × Nat) :=
  buildDbLoop embed chains [] 0

/-- The body of one `build_hybrid_reasoning_db.py` loop iteration. -/
def processChainHybrid {E : Type} (embed : List Char → Option E)
    (chain : List (List Char × Json)) : Option (DbEntry E) :=
  if chainComplete chain then
    match embed (indexText chain) with
    | some v =>
      some ⟨pyGetD chain "paper_id".toList (Json.str "unknown".toList), v,
            indexText chain, buildMetadataHybrid chain⟩
    | none => none
  else none

/-- The `build_hybrid_reasoning_db.py` loop (no coercions, so no abort). -/
def buildHybridLoop {E : Type} (embed : List Char → Option E) :
    List (List (List Char × Json)) → List (DbEntry E) → Nat →
    List (DbEntry E) × Nat
  | [], acc, failed => (acc, failed)
  | chain :: rest, acc, failed =>
    if chainComplete chain then
      match embed (indexText chain) with
      | some v =>
        buildHybridLoop embed rest
          (acc ++ [⟨pyGetD chain "paper_id".toList (Json.str "unknown".toList), v,
                    indexText chain, buildMetadataHybrid chain⟩]) failed
      | none => buildHybridLoop embed rest acc (failed + 1)
    else buildHybridLoop embed rest acc (failed + 1)

/-- `HybridReasoningDBBuilder.build_database` of
`build_hybrid_reasoning_db.py`. -/
def buildDatabaseHybrid {E : Type} (embed : List Char → Option E)
    (chains : List (List (List Char × Json))) : List (DbEntry E) × Nat :=
  buildHybridLoop embed chains [] 0

/-- A record is counted into `failed_count` exactly when it is incomplete or
its embedding call failed. -/
def failedPred {E : Type} (embed : List Char → Option E)
    (chain : List (List Char × Json)) : Bool :=
  !(chainComplete chain) || (embed (indexText chain)).isNone

/-! ## `extract_reasoning.py`: chain extraction, checkpoint and resume -/

instance : BEq Json := ⟨Json.beq⟩

instance : LawfulBEq Json where
  eq_of_beq h := (Json.beq_iff_json _ _).mp h
  rfl := (Json.beq_iff_json _ _).mpr rfl

/-- The required-field list of `extract_reasoning_chain`: review papers need
evidence/framework, research papers data/method. -/
def requiredFieldsFor (isReview : Bool) : List (List Char) :=
  if isReview then
    ["problem_decomposition".toList, "evidence".toList, "framework".toList,
     "conclusion".toList]
  else
    ["problem_decomposition".toList, "data".toList, "method".toList,
     "conclusion".toList]

/-- Python `s.split('/')[0]`. -/
def splitSlashHead (s : List Char) : List Char :=
  s.takeWhile (fun c => !(c = '/'))

/-- The `year` entry of the result record:
`metadata.get('publish_year', '').split('/')[0] if metadata.get('publish_year') else ''`.
Calling `.split` on a truthy non-string raises (caught by the retry loop,
which then gives up), modelled as `none`. -/
def resultYear (metadata : Json) : Option Json :=
  if truthy (jGetD metadata "publish_year".toList Json.null) then
    match jGetD metadata "publish_year".toList (Json.str []) with
    | .str s => some (Json.str (splitSlashHead s))
    | _ => none
  else some (Json.str [])

/-- The result record assembled by `extract_reasoning_chain` (lines 633-658)
once the required-field check has passed. -/
def buildResultRecord (paperContent metadata : Json) (reasoning : JsonFields)
    (isReview : Bool) : Option (List (List Char × Json)) :=
  match resultYear metadata with
  | none => none
  | some yearV => some (
      [("paper_id".toList, jGetD paperContent "id".toList Json.null),
       ("doi".toList, jGetD paperContent "doi".toList Json.null),
       ("title".toList, jGetD paperContent "title".toList (Json.str "Unknown".toList)),
       ("journal".toList, jGetD metadata "journal".toList Json.null),
       ("year".toList, yearV),
       ("citation_count".toList, jGetD metadata "citation_count".toList Json.null),
       ("is_open_access".toList, jGetD metadata "is_open_access".toList Json.null),
       ("authors".toList, jGetD metadata "authors".toList (Json.arr .nil)),
       ("article_url".toList, jGetD metadata "article_url".toList Json.null),
       ("problem_decomposition".toList, getF reasoning "problem_decomposition".toList),
       ("conclusion".toList, getF reasoning "conclusion".toList)]
      ++ (if isReview then
            [("evidence".toList, getF reasoning "evidence".toList),
             ("framework".toList, getF reasoning "framework".toList)]
          else
            [("data".toList, getF reasoning "data".toList),
             ("method".toList, getF reasoning "method".toList)]))

/-- `extract_reasoning_chain` after the LLM call: the parsed response
`reasoning` must contain every required field (else `ValueError`, retries
exhausted, `None`); then the result record is assembled. -/
def extractReasoningChain (paperContent metadata : Json) (reasoning : JsonFields)
    (isReview : Bool) : Option (List (List Char × Json)) :=
  if (requiredFieldsFor isReview).all (hasKeyF reasoning) then
    buildResultRecord paperContent metadata reasoning isReview
  else none

/-- `_load_processed_papers`: for each line of the output file, parse the
stripped line, and on a dict with a `paper_id` key collect that id; any
failing line (unparsable, non-dict, or a parsed value that raises on
membership or indexing) is skipped by the bare `except`.  The Python set is
modelled as the collected list; only membership is ever used. -/
def loadProcessedPapers (lines : List (List Char)) : List Json :=
  lines.foldl (fun acc line =>
    match loadsModel (pyStrip line) with
    | some (Json.obj fs) =>
      match fieldsLookup fs "paper_id".toList with
      | some v => acc ++ [v]
      | none => acc
    | _ => acc) []

/-- `batch_process` lines 824-831: with resume on and a non-empty checkpoint
set, keep only papers whose `id` is not in the set. -/
def papersToProcess (papers processed : List Json) (resume : Bool) :
    List Json :=
  if resume && !processed.isEmpty then
    papers.filter (fun p => !(processed.contains (jGetD p "id".toList Json.null)))
  else papers

/-- The `batch_process` main loop restricted to its append-only output: each
paper goes through `extract_reasoning_chain` (the LLM response is the
external oracle `llm`, the matched metadata the oracle `metaOf`), and every
`some` result is appended to the output file in order. -/
def runBatch (toProcess : List Json) (metaOf : Json → Json)
    (llm : Json → Option JsonFields) (isReview : Bool) :
    List (List (List Char × Json)) :=
  toProcess.filterMap (fun p =>
    match llm p with
    | none => none
    | some reasoning => extractReasoningChain p (metaOf p) reasoning isReview)

/-! ## `reasoning_chain_generator.py`: `generate_reasoning_chain` -/

/-- Python `s.find(c)`: index of the first occurrence (`-1` becomes
`none`). -/
def findIdx (c : Char) : List Char → Option Nat
  | [] => none
  | x :: r => if x = c then some 0 else (findIdx c r).map (fun i => i + 1)

/-- Python `s.rfind(c)`: index of the last occurrence. -/
def rfindIdx (c : Char) : List Char → Option Nat
  | [] => none
  | x :: r =>
    match rfindIdx c r with
    | some i => some (i + 1)
    | none => if x = c then some 0 else none

/-- The four full-content keys `_parse_generated_chain` requires. -/
def requiredFull : List (List Char) :=
  ["problem_decomposition".toList, "data".toList, "method".toList,
   "conclusion".toList]

/-- The four summary keys `_parse_generated_chain` requires. -/
def requiredSummary : List (List Char) :=
  ["problem_summary".toList, "data_summary".toList, "method_summary".toList,
   "conclusion_summary".toList]

/-- The `reasoning_chain` dict split out of the parsed response. -/
def genReasoningObj (fs : JsonFields) : Json :=
  Json.obj (.cons "problem_decomposition".toList (getF fs "problem_decomposition".toList)
    (.cons "data".toList (getF fs "data".toList)
    (.cons "method".toList (getF fs "method".toList)
    (.cons "conclusion".toList (getF fs "conclusion".toList) .nil))))

/-- The `summary` dict split out of the parsed response (summary values keyed
under the full-content names). -/
def genSummaryObj (fs : JsonFields) : Json :=
  Json.obj (.cons "problem_decomposition".toList (getF fs "problem_summary".toList)
    (.cons "data".toList (getF fs "data_summary".toList)
    (.cons "method".toList (getF fs "method_summary".toList)
    (.cons "conclusion".toList (getF fs "conclusion_summary".toList) .nil))))

/-- `_parse_generated_chain`: slice from the first `'\x7b'` to the last
`'\x7d'` inclusive, `json.loads` it, and demand all eight keys; the parsed
value necessarily starts with the opening brace, so it is an object. -/
def parseGeneratedChain (raw : List Char) : Option (Json × Json) :=
  match findIdx '{' raw, rfindIdx '}' raw with
  | some st, some en =>
    match loadsModel ((raw.drop st).take (en + 1 - st)) with
    | some (Json.obj fs) =>
      if requiredFull.all (hasKeyF fs) && requiredSummary.all (hasKeyF fs) then
        some (genReasoningObj fs, genSummaryObj fs)
      else none
    | _ => none
  | _, _ => none

/-- The result dict of `generate_reasoning_chain`, one `Option` slot per key
that is present only in some outcomes (the `references` slot of the success
outcome is orthogonal to the modelled behaviour and omitted). -/
structure GenResult where
  status : List Char
  message : Option (List Char)
  researchQuestion : Option (List Char)
  reasoningChain : Option Json
  summary : Option Json
  rawOutput : Option (List Char)
deriving DecidableEq

/-- `generate_reasoning_chain`: empty retrieval gives an error dict with no
chain and no raw output; an unparsable LLM output gives an error dict
carrying the raw output; otherwise a success dict with the split chain and
summary.  Retrieval and the LLM are external (`retrieved`, `llmOutput`). -/
def generateReasoningChain {α : Type} (question : List Char)
    (retrieved : List α) (llmOutput : List Char) : GenResult :=
  if retrieved.isEmpty then
    ⟨"error".toList, some "没有找到相关的推理链参考".toList, none, none, none, none⟩
  else
    match parseGeneratedChain llmOutput with
    | none =>
      ⟨"error".toList, some "无法解析生成的推理链".toList, none, none, none,
       some llmOutput⟩
    | some (rc, sm) =>
      ⟨"success".toList, none, some question, some rc, some sm, some llmOutput⟩

/-! ## `embedding_utils.py` vs its callers: keyword-argument binding -/

/-- The keyword parameters `QwenEmbedder.__init__` accepts. -/
def qwenEmbedderParams : List (List Char) :=
  ["api_key".toList, "model".toList, "batch_size".toList, "max_retries".toList]

/-- Python call binding for keyword arguments: every keyword must name a
declared parameter, otherwise the call raises `TypeError` before the body
runs. -/
def kwargsAccepted (params kwargs : List (List Char)) : Bool :=
  kwargs.all (fun k => params.contains k)

/-- Constructing a `QwenEmbedder` with the given keyword names. -/
def qwenEmbedderInit (kwargs : List (List Char)) : Except (List Char) Unit :=
  if kwargsAccepted qwenEmbedderParams kwargs then .ok ()
  else .error "TypeError".toList

/-- `ReasoningChainGenerator.__init__` line 28: its first statement is
`QwenEmbedder(api_key=api_key, dimensions=768)`; the rest of the body is
modelled as succeeding. -/
def reasoningChainGeneratorInit (apiKey chromaPath : List Char) :
    Except (List Char) Unit :=
  match qwenEmbedderInit ["api_key".toList, "dimensions".toList] with
  | .error e => .error e
  | .ok _ => .ok ()

/-- `HybridReasoningDBBuilder.__init__` of `build_db.py` line 37: likewise
starts with `QwenEmbedder(api_key=api_key, dimensions=768)`. -/
def dbBuilderInit (apiKey chromaPath : List Char) : Except (List Char) Unit :=
  match qwenEmbedderInit ["api_key".toList, "dimensions".toList] with
  | .error e => .error e
  | .ok _ => .ok ()

/-- `HybridReasoningDBBuilder.__init__` of `build_hybrid_reasoning_db.py`
passes only `api_key=...` to `QwenEmbedder`. -/
def hybridBuilderInit (apiKey chromaPath : List Char) :
    Except (List Char) Unit :=
  match qwenEmbedderInit ["api_key".toList] with
  | .error e => .error e
  | .ok _ => .ok ()

/-- C10: for every api_key and chroma_path, `ReasoningChainGenerator.__init__`
and the `HybridReasoningDBBuilder.__init__` of `build_db.py` raise `TypeError`
before doing any work, because both pass `dimensions=768` to `QwenEmbedder`,
whose constructor accepts only api_key, model, batch_size and max_retries;
the `build_hybrid_reasoning_db.py` variant, which passes only `api_key`,
constructs fine. -/
theorem c10_dimensions_kwarg_type_error (apiKey chromaPath : List Char) :
    reasoningChainGeneratorInit apiKey chromaPath = .error "TypeError".toList
  ∧ dbBuilderInit apiKey chromaPath = .error "TypeError".toList
  ∧ hybridBuilderInit apiKey chromaPath = .ok () :=
  ⟨rfl, rfl, rfl⟩

/-- C5: for two reasoning-chain records with the same title and
problem_decomposition, `build_database` hands the embedder the identical
index text, whatever their data/method/conclusion fields; and the stored
`reasoning_chain` metadata string carries exactly the four reasoning fields
of each record (it parses back to the four-field object). -/
theorem c5_index_text_depends_only_on_title_problem
    (ca cb : List (List Char × Json))
    (ht : pyGetD ca "title".toList (Json.str "Unknown Title".toList) =
          pyGetD cb "title".toList (Json.str "Unknown Title".toList))
    (hp : chainProblem ca = chainProblem cb) :
    indexText ca = indexText cb
  ∧ (∀ (E : Type) (embed : List Char → Option E),
       embed (indexText ca) = embed (indexText cb))
  ∧ (∀ chain : List (List Char × Json), wfJ (reasoningChainObj chain) = true →
       loadsModel (reasoningChainStr chain) = some (reasoningChainObj chain))
  ∧ (∀ chain : List (List Char × Json),
       fieldsKeys (reasoningChainFields chain) =
         ["problem_decomposition".toList, "data".toList, "method".toList,
          "conclusion".toList]) := by
  have h1 : indexText ca = indexText cb := by
    unfold indexText
    rw [ht, hp]
  exact ⟨h1, fun E embed => by rw [h1],
    fun chain hwf => loadsModel_serialize hwf, fun chain => rfl⟩

def c5ChainA : List (List Char × Json) :=
  [("title".toList, Json.str ['T']),
   ("problem_decomposition".toList, Json.str ['p']),
   ("data".toList, Json.str ['d']),
   ("method".toList, Json.str ['m']),
   ("conclusion".toList, Json.str ['c'])]

def c5ChainB : List (List Char × Json) :=
  [("title".toList, Json.str ['T']),
   ("problem_decomposition".toList, Json.str ['p']),
   ("data".toList, Json.str ['x']),
   ("method".toList, Json.str ['y']),
   ("conclusion".toList, Json.str ['z'])]

/-- Witness: two records agreeing on title and problem only still embed the
same index text, and the stored payload of the first parses back with all
four fields. -/
theorem c5_index_text_witness :
    (pyGetD c5ChainA "title".toList (Json.str "Unknown Title".toList) =
     pyGetD c5ChainB "title".toList (Json.str "Unknown Title".toList))
  ∧ chainProblem c5ChainA = chainProblem c5ChainB
  ∧ c5ChainA ≠ c5ChainB
  ∧ indexText c5ChainA = indexText c5ChainB
  ∧ wfJ (reasoningChainObj c5ChainA) = true
  ∧ loadsModel (reasoningChainStr c5ChainA) =
      some (reasoningChainObj c5ChainA) := by
  refine ⟨by decide, by decide, by decide,
    (c5_index_text_depends_only_on_title_problem c5ChainA c5ChainB
      (by decide) (by decide)).1, by decide,
    (c5_index_text_depends_only_on_title_problem c5ChainA c5ChainB
      (by decide) (by decide)).2.2.1 c5ChainA (by decide)⟩

/-- Normal form of the `build_db.py` loop: when no staged record's `int()`
coercion raises, the staged entries are exactly the per-record partial map
over the input, and `failed_count` counts the incomplete-or-embed-failed
records. -/
theorem buildDbLoop_norm {E : Type} (embed : List Char → Option E)
    (chains : List (List (List Char × Json)))
    (hok : ∀ c ∈ chains, chainComplete c = true → (embed (indexText c)).isSome →
      (buildMetadataDb c).isSome) :
    ∀ (acc : List (DbEntry E)) (failed : Nat),
      buildDbLoop embed chains acc failed =
        some (acc ++ chains.filterMap (processChain embed),
              failed + (chains.filter (failedPred embed)).length) := by
  induction chains with
  | nil => intro acc failed; simp [buildDbLoop]
  | cons c rest ih =>
    intro acc failed
    have hok' : ∀ x ∈ rest, chainComplete x = true → (embed (indexText x)).isSome →
        (buildMetadataDb x).isSome := fun x hx => hok x (List.mem_cons_of_mem _ hx)
    by_cases hc : chainComplete c = true
    · by_cases he : (embed (indexText c)).isSome = true
      · rcases Option.isSome_iff_exists.mp he with ⟨v, hv⟩
        rcases Option.isSome_iff_exists.mp
          (hok c (List.mem_cons_self c rest) hc he) with ⟨md, hmd⟩
        have hfp : failedPred embed c = false := by
          simp [failedPred, hc, hv]
        simp only [buildDbLoop, hc, if_true, hv, hmd]
        rw [ih hok' _ failed]
        simp only [List.filterMap_cons, processChain, hc, if_true, hv, hmd,
          List.filter_cons, hfp, List.append_assoc, List.singleton_append,
          Bool.false_eq_true, if_false]
      · have hen : embed (indexText c) = none := by
          cases hee : embed (indexText c)
          · rfl
          · rw [hee] at he; exact absurd rfl he
        have hfp : failedPred embed c = true := by
          simp [failedPred, hen]
        simp only [buildDbLoop, hc, if_true, hen]
        rw [ih hok' acc (failed + 1)]
        have hpc : processChain embed c = none := by
          unfold processChain
          rw [if_pos hc, hen]
        simp only [List.filterMap_cons, hpc, List.filter_cons, hfp, if_true,
          List.length_cons]
        congr 2
        omega
    · have hcf : chainComplete c = false := by
        cases hcc : chainComplete c
        · rfl
        · exact absurd hcc hc
      have hfp : failedPred embed c = true := by
        simp [failedPred, hcf]
      have hpc : processChain embed c = none := by
        unfold processChain
        rw [if_neg hc]
      simp only [buildDbLoop, hcf, Bool.false_eq_true, if_false]
      rw [ih hok' acc (failed + 1)]
      simp only [List.filterMap_cons, hpc, List.filter_cons, hfp, if_true,
        List.length_cons]
      congr 2
      omega

/-- C6: a record contributes an entry exactly when its four reasoning fields
are all present and truthy and its embedding call succeeded; a record failing
either condition contributes nothing and is counted in `failed_count` (the
staged sequence is the partial map over the input, so no partial entry
exists); and `extract_reasoning_chain` returns a result only when every
required field is present in the LLM response. -/
theorem c6_no_partial_entries {E : Type} (embed : List Char → Option E)
    (chains : List (List (List Char × Json)))
    (hok : ∀ c ∈ chains, chainComplete c = true → (embed (indexText c)).isSome →
      (buildMetadataDb c).isSome) :
    buildDatabase embed chains =
      some (chains.filterMap (processChain embed),
            (chains.filter (failedPred embed)).length)
  ∧ (∀ c e, processChain embed c = some e →
       chainComplete c = true ∧ (embed (indexText c)).isSome = true)
  ∧ (∀ c ∈ chains, chainComplete c = true → (embed (indexText c)).isSome = true →
       (processChain embed c).isSome = true)
  ∧ (∀ (pc md : Json) (reasoning : JsonFields) (isReview : Bool)
       (r : List (List Char × Json)),
       extractReasoningChain pc md reasoning isReview = some r →
       ((requiredFieldsFor isReview).all (hasKeyF reasoning)) = true) := by
  refine ⟨by rw [buildDatabase, buildDbLoop_norm embed chains hok]; simp, ?_, ?_, ?_⟩
  · intro c e h
    unfold processChain at h
    split at h
    · rename_i hc
      refine ⟨hc, ?_⟩
      split at h
      · rename_i v hv
        rw [hv]
        rfl
      · exact Option.noConfusion h
    · exact Option.noConfusion h
  · intro c hcm hc he
    rcases Option.isSome_iff_exists.mp he with ⟨v, hv⟩
    rcases Option.isSome_iff_exists.mp (hok c hcm hc he) with ⟨md, hmd⟩
    unfold processChain
    rw [if_pos hc, hv, hmd]
    rfl
  · intro pc md reasoning isReview r h
    unfold extractReasoningChain at h
    split at h
    · assumption
    · exact Option.noConfusion h

def c6ChainGood : List (List Char × Json) :=
  [("problem_decomposition".toList, Json.str ['p']),
   ("data".toList, Json.str ['d']),
   ("method".toList, Json.str ['m']),
   ("conclusion".toList, Json.str ['c']),
   ("title".toList, Json.str ['T']),
   ("paper_id".toList, Json.str ['i'])]

def c6ChainBad : List (List Char × Json) :=
  [("problem_decomposition".toList, Json.str ['p'])]

def c6Embed : List Char → Option Nat := fun _ => some 0

/-- Witness: on a complete and an incomplete record, the build stages exactly
the complete one and counts the other as failed. -/
theorem c6_no_partial_entries_witness :
    (∀ c ∈ [c6ChainGood, c6ChainBad], chainComplete c = true →
       (c6Embed (indexText c)).isSome → (buildMetadataDb c).isSome)
  ∧ buildDatabase c6Embed [c6ChainGood, c6ChainBad] =
      some ([c6ChainGood, c6ChainBad].filterMap (processChain c6Embed),
            ([c6ChainGood, c6ChainBad].filter (failedPred c6Embed)).length)
  ∧ chainComplete c6ChainGood = true
  ∧ chainComplete c6ChainBad = false := by
  refine ⟨by decide,
    (c6_no_partial_entries c6Embed [c6ChainGood, c6ChainBad] (by decide)).1,
    by decide, by decide⟩

theorem pyOr_ne_null (a b : Json) (hb : b ≠ Json.null) : pyOr a b ≠ Json.null := by
  unfold pyOr
  split
  · rename_i h
    intro hn
    rw [hn] at h
    simp [truthy] at h
  · exact hb

/-- A complete record carrying an explicit `"doi": null`. -/
def c7Chain : List (List Char × Json) :=
  [("problem_decomposition".toList, Json.str ['p']),
   ("data".toList, Json.str ['d']),
   ("method".toList, Json.str ['m']),
   ("conclusion".toList, Json.str ['c']),
   ("doi".toList, Json.null),
   ("title".toList, Json.str ['T']),
   ("paper_id".toList, Json.str ['i'])]

/-- C7 counterexample: `build_hybrid_reasoning_db.py` uses plain
`chain.get(key, default)`, so a record with an explicit `"doi": null` gets
`null` stored in the metadata passed to the vector store — the defaulting
only covers absent keys, not null values. -/
theorem c7_counterexample :
    chainComplete c7Chain = true
  ∧ jLookup c7Chain "doi".toList = some Json.null
  ∧ (∃ e, e ∈ (buildDatabaseHybrid (fun _ => some (0 : Nat)) [c7Chain]).1 ∧
       ("doi".toList, Json.null) ∈ e.metadata) := by
  decide

/-- C7 amended: in `build_db.py` the `or`-defaults, `int()` and `bool()`
coercions and the dumps make every declared field other than paper_id and
title non-null whatever the record holds (missing or null doi/year/
citation_count/journal become ''/0/0/'', is_open_access a bool, authors and
reasoning_chain strings); in `build_hybrid_reasoning_db.py` the `get`
defaults apply only to absent keys, and an explicit `null` value passes
through to the store unchanged. -/
theorem c7_db_defaults_hybrid_null_passthrough
    (chain md : List (List Char × Json))
    (h : buildMetadataDb chain = some md) :
    (∀ v : Json, ("doi".toList, v) ∈ md → v ≠ Json.null)
  ∧ (∀ v : Json, ("year".toList, v) ∈ md → v ≠ Json.null)
  ∧ (∀ v : Json, ("citation_count".toList, v) ∈ md → v ≠ Json.null)
  ∧ (∀ v : Json, ("journal".toList, v) ∈ md → v ≠ Json.null)
  ∧ (∀ v : Json, ("is_open_access".toList, v) ∈ md → v ≠ Json.null)
  ∧ (∀ v : Json, ("authors".toList, v) ∈ md → v ≠ Json.null)
  ∧ (∀ v : Json, ("reasoning_chain".toList, v) ∈ md → v ≠ Json.null)
  ∧ (jLookup chain "year".toList = none →
       ("year".toList, Json.num 0) ∈ buildMetadataHybrid chain)
  ∧ (jLookup chain "doi".toList = some Json.null →
       ("doi".toList, Json.null) ∈ buildMetadataHybrid chain) := by
  unfold buildMetadataDb at h
  simp only [] at h
  rcases hy : pyInt (pyOr (pyGetD chain "year".toList Json.null) (Json.num 0))
    with _ | y <;>
    rcases hcit : pyInt (pyOr (pyGetD chain "citation_count".toList Json.null)
      (Json.num 0)) with _ | cit <;>
    rw [hy, hcit] at h
  · exact Option.noConfusion h
  · exact Option.noConfusion h
  · exact Option.noConfusion h
  have hmd := Option.some.inj h
  subst hmd
  refine ⟨?_, ?_, ?_, ?_, ?_, ?_, ?_, ?_, ?_⟩
  · intro v hv
    simp only [List.mem_cons, List.not_mem_nil, or_false] at hv
    rcases hv with h'|h'|h'|h'|h'|h'|h'|h'|h' <;> injection h' with h1 h2 <;>
      first
      | exact absurd h1 (by decide)
      | (subst h2
         first
         | exact fun hn => Json.noConfusion hn
         | exact pyOr_ne_null _ _ (fun hb => Json.noConfusion hb))
  · intro v hv
    simp only [List.mem_cons, List.not_mem_nil, or_false] at hv
    rcases hv with h'|h'|h'|h'|h'|h'|h'|h'|h' <;> injection h' with h1 h2 <;>
      first
      | exact absurd h1 (by decide)
      | (subst h2
         first
         | exact fun hn => Json.noConfusion hn
         | exact pyOr_ne_null _ _ (fun hb => Json.noConfusion hb))
  · intro v hv
    simp only [List.mem_cons, List.not_mem_nil, or_false] at hv
    rcases hv with h'|h'|h'|h'|h'|h'|h'|h'|h' <;> injection h' with h1 h2 <;>
      first
      | exact absurd h1 (by decide)
      | (subst h2
         first
         | exact fun hn => Json.noConfusion hn
         | exact pyOr_ne_null _ _ (fun hb => Json.noConfusion hb))
  · intro v hv
    simp only [List.mem_cons, List.not_mem_nil, or_false] at hv
    rcases hv with h'|h'|h'|h'|h'|h'|h'|h'|h' <;> injection h' with h1 h2 <;>
      first
      | exact absurd h1 (by decide)
      | (subst h2
         first
         | exact fun hn => Json.noConfusion hn
         | exact pyOr_ne_null _ _ (fun hb => Json.noConfusion hb))
  · intro v hv
    simp only [List.mem_cons, List.not_mem_nil, or_false] at hv
    rcases hv with h'|h'|h'|h'|h'|h'|h'|h'|h' <;> injection h' with h1 h2 <;>
      first
      | exact absurd h1 (by decide)
      | (subst h2
         first
         | exact fun hn => Json.noConfusion hn
         | exact pyOr_ne_null _ _ (fun hb => Json.noConfusion hb))
  · intro v hv
    simp only [List.mem_cons, List.not_mem_nil, or_false] at hv
    rcases hv with h'|h'|h'|h'|h'|h'|h'|h'|h' <;> injection h' with h1 h2 <;>
      first
      | exact absurd h1 (by decide)
      | (subst h2
         first
         | exact fun hn => Json.noConfusion hn
         | exact pyOr_ne_null _ _ (fun hb => Json.noConfusion hb))
  · intro v hv
    simp only [List.mem_cons, List.not_mem_nil, or_false] at hv
    rcases hv with h'|h'|h'|h'|h'|h'|h'|h'|h' <;> injection h' with h1 h2 <;>
      first
      | exact absurd h1 (by decide)
      | (subst h2
         first
         | exact fun hn => Json.noConfusion hn
         | exact pyOr_ne_null _ _ (fun hb => Json.noConfusion hb))
  · intro hnone
    have hn2 : jLookup chain ['y', 'e', 'a', 'r'] = none := hnone
    simp [buildMetadataHybrid, pyGetD, hn2]
  · intro hsome
    have hs2 : jLookup chain ['d', 'o', 'i'] = some Json.null := hsome
    simp [buildMetadataHybrid, pyGetD, hs2]

/-- The metadata `build_db.py` computes for `c7Chain`: the explicit null doi
is defaulted to the empty string there. -/
def c7Md : List (List Char × Json) :=
  [("paper_id".toList, Json.str ['i']),
   ("title".toList, Json.str ['T']),
   ("doi".toList, Json.str []),
   ("year".toList, Json.num 0),
   ("citation_count".toList, Json.num 0),
   ("journal".toList, Json.str []),
   ("authors".toList, Json.str (serialize (Json.arr .nil))),
   ("is_open_access".toList, Json.bool false),
   ("reasoning_chain".toList, Json.str (reasoningChainStr c7Chain))]

/-- Witness: on the explicit-null record, `build_db.py` stores '' for doi
while the hybrid builder stores `null`. -/
theorem c7_defaults_witness :
    buildMetadataDb c7Chain = some c7Md
  ∧ (∀ v : Json, ("doi".toList, v) ∈ c7Md → v ≠ Json.null)
  ∧ ("doi".toList, Json.null) ∈ buildMetadataHybrid c7Chain := by
  have h := c7_db_defaults_hybrid_null_passthrough c7Chain c7Md (by decide)
  exact ⟨by decide, h.1, h.2.2.2.2.2.2.2.2 (by decide)⟩

theorem json_contains_iff (l : List Json) (x : Json) :
    l.contains x = true ↔ x ∈ l :=
  List.elem_iff

/-- A result produced by `extract_reasoning_chain` carries
`paper_id = paper_content.get('id')` as its first field. -/
theorem extractChain_paper_id {pc md : Json} {rs : JsonFields} {ir : Bool}
    {r : List (List Char × Json)}
    (h : extractReasoningChain pc md rs ir = some r) :
    jLookup r "paper_id".toList = some (jGetD pc "id".toList Json.null) := by
  unfold extractReasoningChain at h
  split at h
  · unfold buildResultRecord at h
    split at h
    · exact Option.noConfusion h
    · have hr := Option.some.inj h
      rw [← hr]
      simp [jLookup, List.cons_append]
  · exact Option.noConfusion h

/-- C2: with resume on, a restarted run loads the ids already in the
append-only output (a line that fails to parse is skipped, not fatal),
processes only papers whose id is outside that set, and consequently never
re-appends a record whose paper_id is in the checkpoint set. -/
theorem c2_resume_never_reprocesses (lines : List (List Char))
    (papers : List Json) (metaOf : Json → Json)
    (llm : Json → Option JsonFields) (isReview : Bool) :
    (∀ p ∈ papersToProcess papers (loadProcessedPapers lines) true,
       jGetD p "id".toList Json.null ∉ loadProcessedPapers lines)
  ∧ (∀ p ∈ papers, jGetD p "id".toList Json.null ∈ loadProcessedPapers lines →
       p ∉ papersToProcess papers (loadProcessedPapers lines) true)
  ∧ (∀ r ∈ runBatch (papersToProcess papers (loadProcessedPapers lines) true)
       metaOf llm isReview,
       ∀ pid, jLookup r "paper_id".toList = some pid →
         pid ∉ loadProcessedPapers lines)
  ∧ (∀ line : List Char, loadsModel (pyStrip line) = none →
       loadProcessedPapers (lines ++ [line]) = loadProcessedPapers lines) := by
  have key : ∀ (processed : List Json) (p : Json),
      p ∈ papersToProcess papers processed true →
      jGetD p "id".toList Json.null ∉ processed := by
    intro processed p hp
    unfold papersToProcess at hp
    by_cases hproc : processed.isEmpty = true
    · rw [List.isEmpty_iff.mp hproc]
      exact List.not_mem_nil _
    · rw [if_pos (by simp [hproc])] at hp
      have hcond := (List.mem_filter.mp hp).2
      intro hmem
      rw [(json_contains_iff processed _).mpr hmem] at hcond
      exact absurd hcond (by decide)
  refine ⟨key _, ?_, ?_, ?_⟩
  · intro p hp hid hcontra
    exact absurd hid (key _ p hcontra)
  · intro r hr pid hpid
    unfold runBatch at hr
    rcases List.mem_filterMap.mp hr with ⟨p, hpmem, hpf⟩
    rcases hl : llm p with _ | rs
    · rw [hl] at hpf
      exact Option.noConfusion hpf
    · rw [hl] at hpf
      have hid := extractChain_paper_id hpf
      rw [hid] at hpid
      have := Option.some.inj hpid
      rw [← this]
      exact key _ p hpmem
  · intro line hbad
    unfold loadProcessedPapers
    rw [List.foldl_append, List.foldl_cons, List.foldl_nil, hbad]

def c2GoodLine : List Char :=
  serialize (Json.obj (.cons "paper_id".toList (Json.str ['A']) .nil))

def c2BadLine : List Char := ['g', 'a', 'r', 'b']

def c2Lines : List (List Char) := [c2GoodLine]

def c2PaperA : Json := Json.obj (.cons "id".toList (Json.str ['A']) .nil)

def c2PaperB : Json := Json.obj (.cons "id".toList (Json.str ['B']) .nil)

def c2Papers : List Json := [c2PaperA, c2PaperB]

/-- Witness: with paper A already in the output, a resumed run keeps only
paper B, and a garbage line appended to the output changes nothing. -/
theorem c2_resume_witness :
    c2PaperB ∈ papersToProcess c2Papers (loadProcessedPapers c2Lines) true
  ∧ jGetD c2PaperB "id".toList Json.null ∉ loadProcessedPapers c2Lines
  ∧ c2PaperA ∉ papersToProcess c2Papers (loadProcessedPapers c2Lines) true
  ∧ loadProcessedPapers (c2Lines ++ [c2BadLine]) = loadProcessedPapers c2Lines := by
  have h := c2_resume_never_reprocesses c2Lines c2Papers (fun _ => Json.obj .nil)
    (fun _ => none) false
  exact ⟨by decide, h.1 c2PaperB (by decide), h.2.1 c2PaperA (by decide) (by decide),
    h.2.2.2 c2BadLine (by decide)⟩

/-- C8: `generate_reasoning_chain` returns status success exactly when
retrieval found at least one neighbour and the LLM output parses with all
eight required fields; zero neighbours give an error dict without chain or
raw output; a parse/validation failure gives an error dict with the raw
output attached and no chain; and a successful parse really comes from a
JSON span of the output holding all eight keys, its chain and summary split
straight out of that span. -/
theorem c8_generate_status {α : Type} (question : List Char)
    (retrieved : List α) (out : List Char) :
    ((generateReasoningChain question retrieved out).status = "success".toList ↔
       retrieved ≠ [] ∧ (parseGeneratedChain out).isSome = true)
  ∧ (retrieved = [] →
       generateReasoningChain question retrieved out =
         ⟨"error".toList, some "没有找到相关的推理链参考".toList, none, none,
          none, none⟩)
  ∧ (retrieved ≠ [] → parseGeneratedChain out = none →
       generateReasoningChain question retrieved out =
         ⟨"error".toList, some "无法解析生成的推理链".toList, none, none, none,
          some out⟩)
  ∧ (∀ rc sm, parseGeneratedChain out = some (rc, sm) →
       ∃ st en fs, findIdx '{' out = some st ∧ rfindIdx '}' out = some en ∧
         loadsModel ((out.drop st).take (en + 1 - st)) = some (Json.obj fs) ∧
         (requiredFull.all (hasKeyF fs) && requiredSummary.all (hasKeyF fs))
           = true ∧
         rc = genReasoningObj fs ∧ sm = genSummaryObj fs) := by
  refine ⟨?_, ?_, ?_, ?_⟩
  · cases retrieved with
    | nil =>
      constructor
      · intro hst
        rw [show generateReasoningChain question ([] : List α) out =
            ⟨"error".toList, some "没有找到相关的推理链参考".toList, none, none,
             none, none⟩ from rfl] at hst
        exact absurd hst (by decide)
      · rintro ⟨hne, _⟩
        exact absurd rfl hne
    | cons a as =>
      rcases hp : parseGeneratedChain out with _ | ⟨rc, sm⟩
      · constructor
        · intro hst
          simp only [generateReasoningChain, List.isEmpty_cons,
            Bool.false_eq_true, if_false, hp] at hst
          exact absurd hst (by decide)
        · rintro ⟨_, hps⟩
          exact absurd hps (by decide)
      · constructor
        · intro _
          exact ⟨List.cons_ne_nil a as, rfl⟩
        · intro _
          simp only [generateReasoningChain, List.isEmpty_cons,
            Bool.false_eq_true, if_false, hp]
  · intro h
    subst h
    rfl
  · intro hne hp
    cases retrieved with
    | nil => exact absurd rfl hne
    | cons a as =>
      simp only [generateReasoningChain, List.isEmpty_cons, Bool.false_eq_true,
        if_false, hp]
  · intro rc sm h
    unfold parseGeneratedChain at h
    rcases hf : findIdx '{' out with _ | st <;>
      rcases hr : rfindIdx '}' out with _ | en <;> rw [hf, hr] at h
    · exact Option.noConfusion h
    · exact Option.noConfusion h
    · exact Option.noConfusion h
    replace h : (match loadsModel ((out.drop st).take (en + 1 - st)) with
        | some (Json.obj fs) =>
          if requiredFull.all (hasKeyF fs) && requiredSummary.all (hasKeyF fs) then
            some (genReasoningObj fs, genSummaryObj fs)
          else none
        | _ => none) = some (rc, sm) := h
    rcases hl : loadsModel ((out.drop st).take (en + 1 - st)) with _ | j <;>
      rw [hl] at h
    · exact Option.noConfusion h
    cases j with
    | obj fs =>
      replace h : (if requiredFull.all (hasKeyF fs) && requiredSummary.all (hasKeyF fs)
          then some (genReasoningObj fs, genSummaryObj fs)
          else none) = some (rc, sm) := h
      split at h
      · rename_i hcond
        have hpair := Option.some.inj h
        refine ⟨st, en, fs, rfl, rfl, hl, hcond, ?_, ?_⟩
        · exact (congrArg Prod.fst hpair).symm
        · exact (congrArg Prod.snd hpair).symm
      · exact Option.noConfusion h
    | null => exact Option.noConfusion (show (none : Option (Json × Json)) = some (rc, sm) from h)
    | bool b => exact Option.noConfusion (show (none : Option (Json × Json)) = some (rc, sm) from h)
    | num n => exact Option.noConfusion (show (none : Option (Json × Json)) = some (rc, sm) from h)
    | str s => exact Option.noConfusion (show (none : Option (Json × Json)) = some (rc, sm) from h)
    | arr xs => exact Option.noConfusion (show (none : Option (Json × Json)) = some (rc, sm) from h)

def c8Fs : JsonFields :=
  .cons "problem_decomposition".toList (Json.str ['p'])
  (.cons "data".toList (Json.str ['d'])
  (.cons "method".toList (Json.str ['m'])
  (.cons "conclusion".toList (Json.str ['c'])
  (.cons "problem_summary".toList (Json.str ['P'])
  (.cons "data_summary".toList (Json.str ['D'])
  (.cons "method_summary".toList (Json.str ['M'])
  (.cons "conclusion_summary".toList (Json.str ['C']) .nil)))))))

/-- An LLM output with leading prose before the JSON object. -/
def c8Out : List Char := 'x' :: serialize (Json.obj c8Fs)

set_option maxRecDepth 8192 in
/-- Witness: an eight-field output embedded in prose yields success with one
neighbour and the no-neighbour error dict with none. -/
theorem c8_generate_status_witness :
    ([0] : List Nat) ≠ [] ∧ (parseGeneratedChain c8Out).isSome = true
  ∧ (generateReasoningChain ['q'] ([0] : List Nat) c8Out).status =
      "success".toList
  ∧ generateReasoningChain ['q'] ([] : List Nat) c8Out =
      ⟨"error".toList, some "没有找到相关的推理链参考".toList, none, none, none,
       none⟩ := by
  refine ⟨by decide, by decide,
    (c8_generate_status ['q'] [0] c8Out).1.mpr ⟨by decide, by decide⟩,
    (c8_generate_status ['q'] ([] : List Nat) c8Out).2.1 rfl⟩

end RRag
